import Mathlib

/-!
Shallow embedding of the hackday_bot repository: the membership ledger
(src/hackday_bot/members.py, class Members) and the comment-processing bot
(src/hackday_bot/bot.py, class Bot together with the second copy of Members
defined in that file, which is the one Bot actually instantiates).

Python strings are modelled as Lean String / List Char; Python sets of strings
as duplicate-free Lists; Python dicts as insertion-ordered association lists.
Remote side effects (wiki page edits, comment replies, sleeps, file writes)
are modelled as explicit effect traces returned alongside the new state.
-/

namespace HackdayBot

/-! ## Python string primitives -/

/-- Python compares strings lexicographically by code point; this is the
comparison on the underlying character lists, using `Char.toNat`. -/
def pyCharsLe : List Char → List Char → Bool
  | [], _ => true
  | _ :: _, [] => false
  | a :: as, b :: bs =>
    if a.toNat < b.toNat then true
    else if b.toNat < a.toNat then false
    else pyCharsLe as bs

/-- Python string comparison `a <= b` (used by `sorted`). -/
def pyLe (a b : String) : Prop := pyCharsLe a.data b.data = true

instance : DecidableRel pyLe := fun a b => by
  unfold pyLe; infer_instance

theorem pyCharsLe_cons_iff (x y : Char) (as bs : List Char) :
    pyCharsLe (x :: as) (y :: bs) = true ↔
      x.toNat < y.toNat ∨ (x.toNat = y.toNat ∧ pyCharsLe as bs = true) := by
  rcases Nat.lt_trichotomy x.toNat y.toNat with h | h | h
  · constructor
    · intro _
      exact Or.inl h
    · intro _
      simp [pyCharsLe, h]
  · have h1 : ¬ x.toNat < y.toNat := by omega
    have h2 : ¬ y.toNat < x.toNat := by omega
    simp only [pyCharsLe, if_neg h1, if_neg h2]
    constructor
    · intro hh
      exact Or.inr ⟨h, hh⟩
    · intro hh
      rcases hh with hh | ⟨_, hh⟩
      · omega
      · exact hh
  · have h1 : ¬ x.toNat < y.toNat := by omega
    simp only [pyCharsLe, if_neg h1, if_pos h]
    constructor
    · intro hh
      exact absurd hh (by decide)
    · intro hh
      exfalso
      rcases hh with hh | ⟨he, _⟩ <;> omega

theorem pyCharsLe_total (a b : List Char) :
    pyCharsLe a b = true ∨ pyCharsLe b a = true := by
  induction a generalizing b with
  | nil => left; rfl
  | cons x as ih =>
    cases b with
    | nil => right; rfl
    | cons y bs =>
      rw [pyCharsLe_cons_iff, pyCharsLe_cons_iff]
      rcases Nat.lt_trichotomy x.toNat y.toNat with h | h | h
      · exact Or.inl (Or.inl h)
      · rcases ih bs with h2 | h2
        · exact Or.inl (Or.inr ⟨h, h2⟩)
        · exact Or.inr (Or.inr ⟨h.symm, h2⟩)
      · exact Or.inr (Or.inl h)

theorem pyCharsLe_trans (a b c : List Char)
    (h1 : pyCharsLe a b = true) (h2 : pyCharsLe b c = true) :
    pyCharsLe a c = true := by
  induction a generalizing b c with
  | nil => rfl
  | cons x as ih =>
    cases b with
    | nil => simp [pyCharsLe] at h1
    | cons y bs =>
      cases c with
      | nil => simp [pyCharsLe] at h2
      | cons z cs =>
        rw [pyCharsLe_cons_iff] at h1 h2 ⊢
        rcases h1 with h1 | ⟨h1e, h1r⟩
        · rcases h2 with h2 | ⟨h2e, _⟩
          · exact Or.inl (by omega)
          · exact Or.inl (by omega)
        · rcases h2 with h2 | ⟨h2e, h2r⟩
          · exact Or.inl (by omega)
          · exact Or.inr ⟨by omega, ih bs cs h1r h2r⟩

instance : IsTotal String pyLe := ⟨fun a b => pyCharsLe_total a.data b.data⟩

instance : IsTrans String pyLe :=
  ⟨fun a b c h1 h2 => pyCharsLe_trans a.data b.data c.data h1 h2⟩

/-- Python `sorted` on a list of strings (code-point order). Duplicate-free
inputs make the stability of the underlying sort irrelevant. -/
def pySorted (l : List String) : List String := List.insertionSort pyLe l

/-- The whitespace characters recognised by Python `str.strip` and by the
regex class `\s`, restricted to the ASCII range (the only characters the
bot's own output ever produces). -/
def isPySpace (c : Char) : Bool :=
  c = ' ' || c = '\t' || c = '\n' || c = '\x0d' || c = '\x0b' || c = '\x0c'

/-- Python `str.strip()` on a character list. -/
def pyStrip (l : List Char) : List Char :=
  ((l.dropWhile isPySpace).reverse.dropWhile isPySpace).reverse

/-- Python `s.split('\n')` on a character list: `''.split('\n') == ['']`. -/
def splitNl : List Char → List (List Char)
  | [] => [[]]
  | c :: rest =>
    if c = '\n' then [] :: splitNl rest
    else
      match splitNl rest with
      | [] => [[c]]
      | l :: ls => (c :: l) :: ls

/-- Python `'\n'.join(lines)` on character lists. -/
def joinNl : List (List Char) → List Char
  | [] => []
  | [l] => l
  | l :: rest => l ++ '\n' :: joinNl rest

theorem splitNl_ne_nil (l : List Char) : splitNl l ≠ [] := by
  induction l with
  | nil => simp [splitNl]
  | cons c rest ih =>
    simp only [splitNl]
    split
    · simp
    · cases h : splitNl rest with
      | nil => simp
      | cons a as => simp

theorem splitNl_noNl (a : List Char) (ha : '\n' ∉ a) : splitNl a = [a] := by
  induction a with
  | nil => simp [splitNl]
  | cons c cs ih =>
    have hc : c ≠ '\n' := fun h => ha (h ▸ List.mem_cons_self c cs)
    have hcs : '\n' ∉ cs := fun h => ha (List.mem_cons_of_mem c h)
    simp only [splitNl, if_neg hc, ih hcs]

theorem splitNl_append_cons (a tail : List Char) (ha : '\n' ∉ a) :
    splitNl (a ++ '\n' :: tail) = a :: splitNl tail := by
  induction a with
  | nil => simp [splitNl]
  | cons c cs ih =>
    have hc : c ≠ '\n' := fun h => ha (h ▸ List.mem_cons_self c cs)
    have hcs : '\n' ∉ cs := fun h => ha (List.mem_cons_of_mem c h)
    rw [List.cons_append]
    simp only [splitNl, if_neg hc, ih hcs]

/-- Splitting a newline-join recovers the lines, provided no line contains a
newline and the line list is nonempty. -/
theorem splitNl_joinNl (ls : List (List Char)) (hne : ls ≠ [])
    (h : ∀ l ∈ ls, '\n' ∉ l) :
    splitNl (joinNl ls) = ls := by
  induction ls with
  | nil => exact absurd rfl hne
  | cons a rest ih =>
    cases rest with
    | nil =>
      exact splitNl_noNl a (h a (List.mem_cons_self a []))
    | cons b rest2 =>
      have ha : '\n' ∉ a := h a (List.mem_cons_self a _)
      show splitNl (a ++ '\n' :: joinNl (b :: rest2)) = _
      rw [splitNl_append_cons a _ ha]
      rw [ih (by simp) (fun l hl => h l (List.mem_cons_of_mem a hl))]

/-! ## Membership ledger (src/hackday_bot/members.py, class Members) -/

/-- The value stored in `Members.projects` for one submission url: display
title and the two rosters. Python sets are modelled as duplicate-free lists. -/
structure Project where
  title : String
  assignees : List String
  interested : List String
deriving DecidableEq, Repr

/-- `Members.projects`: a Python dict from submission url to project record,
modelled as an insertion-ordered association list. -/
abbrev Projects := List (String × Project)

/-- Python `d[url]` lookup in an insertion-ordered dict. -/
def dictGet {α : Type} (url : String) : List (String × α) → Option α
  | [] => none
  | (u, p) :: rest => if u = url then some p else dictGet url rest

/-- Python `d[url] = p`: replace in place when the key is present (dicts keep
the original position), else append. -/
def dictSet {α : Type} (url : String) (p : α) : List (String × α) → List (String × α)
  | [] => [(url, p)]
  | (u, q) :: rest =>
    if u = url then (u, p) :: rest else (u, q) :: dictSet url p rest

/-- Python `set.add` on a duplicate-free list (no-op when present). -/
def setAdd (x : String) (l : List String) : List String :=
  if x ∈ l then l else l ++ [x]

/-- Python `set.remove` on a duplicate-free list; every caller checks
membership first, so remove and discard coincide. -/
def setRemove (x : String) (l : List String) : List String :=
  l.filter (fun y => !(y == x))

/-- The fields of a praw comment that the bot reads: the comment id, the
author's handle (`str(comment.author)`), the body text, and the identity of
the submission the comment is attached to. -/
structure Comment where
  id : String
  author : String
  body : String
  link_url : String
  link_title : String
  link_id : String
deriving DecidableEq, Repr

/-- One overwrite of the remote wiki document via `WikiPage.edit`: the full
new content together with the audit reason. -/
structure WikiWrite where
  content : String
  reason : String
deriving DecidableEq, Repr

/-- Heading emitted by `_save_projects`: `'# [{title}]({url})'`. -/
def headingLine (url title : String) : List Char :=
  "# [".data ++ title.data ++ "](".data ++ url.data ++ ")".data

/-- Assignee bullet emitted by `_save_projects`: `'* /u/{member}'`. -/
def assigneeLine (m : String) : List Char :=
  "* /u/".data ++ m.data

/-- Interested bullet emitted by `_save_projects`:
`'* [INTERESTED] /u/{member}'`. -/
def interestedLine (m : String) : List Char :=
  "* [INTERESTED] /u/".data ++ m.data

/-- The block of lines `_save_projects` emits for one project that survives
the empty-roster skip: heading, sorted assignees, sorted interested. -/
def projectLines (url : String) (p : Project) : List (List Char) :=
  headingLine url p.title ::
    ((pySorted p.assignees).map assigneeLine ++
      (pySorted p.interested).map interestedLine)

/-- `sorted(projects.items(), key=lambda x: x[1]['title'])` uses the title as
sort key. -/
def titleLe (a b : String × Project) : Prop := pyLe a.2.title b.2.title

instance : DecidableRel titleLe := fun a b => by
  unfold titleLe; infer_instance

instance : IsTotal (String × Project) titleLe :=
  ⟨fun a b => pyCharsLe_total a.2.title.data b.2.title.data⟩

instance : IsTrans (String × Project) titleLe :=
  ⟨fun _ _ _ h1 h2 => pyCharsLe_trans _ _ _ h1 h2⟩

/-- The sorted iteration order of `_save_projects`. -/
def sortByTitle (ps : Projects) : Projects := List.insertionSort titleLe ps

/-- The body of the `for` loop of `_save_projects`: `continue` past a project
whose two rosters are both empty, else append its lines. -/
def saveStep (lines : List (List Char)) (entry : String × Project) :
    List (List Char) :=
  if entry.2.assignees = [] ∧ entry.2.interested = [] then lines
  else lines ++ projectLines entry.1 entry.2

/-- `Members._save_projects`: the document text written to the wiki page
(`'\n'.join(lines)` over the accumulated lines). -/
def saveProjects (ps : Projects) : String :=
  String.mk (joinNl ((sortByTitle ps).foldl saveStep []))

/-- The remote operations `_save_projects` performs: a single `edit` call
overwriting the whole page content, tagged with the caller's reason. -/
def saveProjectsEdits (ps : Projects) (reason : String) : List WikiWrite :=
  [⟨saveProjects ps, reason⟩]

/-- Python exceptions the modelled code can raise and does not catch:
ValueError (tuple unpacking), KeyError and IndexError in `_load_projects`,
TypeError from `set()` on a non-iterable in `_load_seen_comments`. -/
inductive PyErr where
  | valueError
  | keyError
  | indexError
  | typeError
deriving DecidableEq, Repr

deriving instance DecidableEq for Except

/-- Python `s.split('](')` on a character list (leftmost, non-overlapping):
when the separator starts here, cut; otherwise keep the character attached
to the first piece of the remainder. -/
def splitBracket : List Char → List (List Char)
  | [] => [[]]
  | [c] => [[c]]
  | c :: c2 :: rest =>
    if c = ']' ∧ c2 = '(' then [] :: splitBracket rest
    else
      match splitBracket (c2 :: rest) with
      | [] => [[c]]
      | l :: ls => (c :: l) :: ls

/-- Python `line.rsplit('/', 1)[1]`: the text after the last `/`, raising
IndexError when the line contains no `/`. -/
def afterLastSlash (l : List Char) : Except PyErr String :=
  if '/' ∈ l then
    .ok (String.mk (l.reverse.takeWhile (fun c => !(c == '/'))).reverse)
  else
    .error .indexError

/-- One iteration of the line loop in `Members._load_projects`. The state is
the projects dict built so far together with Python's `url` variable (the url
of the last heading, initially None). -/
def loadLine (st : Projects × Option String) (rawLine : List Char) :
    Except PyErr (Projects × Option String) :=
  let line := pyStrip rawLine
  if "#".data.isPrefixOf line then
    match splitBracket ((line.drop 3).dropLast) with
    | [t, u] =>
      let url := String.mk u
      .ok (dictSet url ⟨String.mk t, [], []⟩ st.1, some url)
    | _ => .error .valueError
  else if "* [INTERESTED]".data.isPrefixOf line then
    match afterLastSlash line with
    | .error e => .error e
    | .ok username =>
      match st.2 with
      | none => .error .keyError
      | some url =>
        match dictGet url st.1 with
        | none => .error .keyError
        | some p =>
          .ok (dictSet url { p with interested := setAdd username p.interested } st.1,
            st.2)
  else if "*".data.isPrefixOf line then
    match afterLastSlash line with
    | .error e => .error e
    | .ok username =>
      match st.2 with
      | none => .error .keyError
      | some url =>
        match dictGet url st.1 with
        | none => .error .keyError
        | some p =>
          .ok (dictSet url { p with assignees := setAdd username p.assignees } st.1,
            st.2)
  else
    .ok st

/-- `Members._load_projects` applied to the page's markdown content. -/
def loadProjects (content : String) : Except PyErr Projects := do
  let st ← (splitNl content.data).foldlM loadLine (([] : Projects), (none : Option String))
  pure st.1

/-- `Members._comment_info`: `dict.setdefault` inserts a fresh record (with
the comment's submission title and empty rosters) when the url is absent,
then the record for the comment's url is returned. -/
def commentInfo (ps : Projects) (c : Comment) : Projects × Project :=
  match dictGet c.link_url ps with
  | some p => (ps, p)
  | none => (ps ++ [(c.link_url, ⟨c.link_title, [], []⟩)], ⟨c.link_title, [], []⟩)

/-- Result of one public ledger operation: the user-facing message, the new
in-memory state, and the wiki writes performed (at most one). -/
structure MembersResult where
  message : String
  projects : Projects
  writes : List WikiWrite
deriving DecidableEq, Repr

/-- `Members.add`. -/
def membersAdd (ps : Projects) (c : Comment) : MembersResult :=
  let info := commentInfo ps c
  let user := c.author
  if user ∈ info.2.assignees then
    ⟨"You have already joined this project.", info.1, []⟩
  else
    let ps2 := dictSet c.link_url
      { info.2 with assignees := setAdd user info.2.assignees } info.1
    ⟨"You have successfully joined the project.", ps2,
      saveProjectsEdits ps2 ("join " ++ user ++ " to " ++ c.link_id)⟩

/-- `Members.add_interest`. -/
def membersAddInterest (ps : Projects) (c : Comment) : MembersResult :=
  let info := commentInfo ps c
  let user := c.author
  if user ∈ info.2.interested then
    ⟨"You have already expressed interest in this project.", info.1, []⟩
  else
    let ps2 := dictSet c.link_url
      { info.2 with interested := setAdd user info.2.interested } info.1
    ⟨"You have successfully expressed your interest in this project.", ps2,
      saveProjectsEdits ps2 (user ++ " interested in " ++ c.link_id)⟩

/-- `Members.remove`. -/
def membersRemove (ps : Projects) (c : Comment) : MembersResult :=
  let info := commentInfo ps c
  let user := c.author
  if user ∈ info.2.assignees then
    let ps2 := dictSet c.link_url
      { info.2 with assignees := setRemove user info.2.assignees } info.1
    ⟨"You have been removed from the project.", ps2,
      saveProjectsEdits ps2 ("leave " ++ user ++ " from " ++ c.link_id)⟩
  else
    ⟨"You have not joined this project.", info.1, []⟩

/-- The remote wiki page as found at startup. -/
inductive WikiPage where
  | absent
  | content (text : String)
deriving DecidableEq, Repr

/-- Remote effects of `Members.__init__`, in order. -/
inductive InitEffect where
  | create (name : String) (content : String)
  | edit (w : WikiWrite)
deriving DecidableEq, Repr

/-- `Members.__init__`: read the 'projects' wiki page and parse it; on
NotFound create the page empty and start from an empty dict; in both cases
finish with `_save_projects('test')`. Propagates `_load_projects` errors. -/
def membersInit (page : WikiPage) : Except PyErr (Projects × List InitEffect) :=
  match page with
  | .absent =>
    .ok ([], [.create "projects" "", .edit ⟨saveProjects [], "test"⟩])
  | .content text =>
    match loadProjects text with
    | .error e => .error e
    | .ok ps => .ok (ps, [.edit ⟨saveProjects ps, "test"⟩])

/-! ## Command parser (src/hackday_bot/bot.py, COMMAND_RE) -/

/-- The keys of AVAILABLE_COMMANDS in dict insertion order (which is also
ascending key order), i.e. the alternation order inside COMMAND_RE. -/
def AVAILABLE_COMMANDS : List String :=
  ["help", "interested", "join", "leave", "uninterested"]

/-- AVAILABLE_COMMANDS with its description values. -/
def AVAILABLE_COMMANDS_DICT : List (String × String) :=
  [("help", "Output this help message."),
   ("interested", "Indicate interest in the project."),
   ("join", "Indicate intent to join the project."),
   ("leave", "Leave the project."),
   ("uninterested", "Remove your interest in the project.")]

/-- The regex lookahead `(?=\s|\Z)`: end of input or a whitespace character
(consuming nothing). -/
def lookaheadOk : List Char → Bool
  | [] => true
  | c :: _ => isPySpace c

/-- The alternation `(help|interested|join|leave|uninterested)` tried at the
position right after a `!`, in order; an alternative whose trailing lookahead
fails is backtracked past. Returns the captured group and the rest of the
text after the match. -/
def findCmd : List String → List Char → Option (String × List Char)
  | [], _ => none
  | w :: ws, rest =>
    if w.data.isPrefixOf rest then
      if lookaheadOk (rest.drop w.data.length) then
        some (w, rest.drop w.data.length)
      else findCmd ws rest
    else findCmd ws rest

/-- The `\A` alternative of `(?:\A|\s)`: only at the very start of the text,
consuming nothing before the `!`. -/
def tryStart (atStart : Bool) (l : List Char) : Option (String × List Char) :=
  match atStart, l with
  | true, '!' :: rest => findCmd AVAILABLE_COMMANDS rest
  | _, _ => none

/-- The `\s` alternative of `(?:\A|\s)`: one whitespace character before the
`!`, consumed by the match. -/
def trySpace (l : List Char) : Option (String × List Char) :=
  match l with
  | c :: '!' :: rest =>
    if isPySpace c then findCmd AVAILABLE_COMMANDS rest else none
  | _ => none

/-- One anchored match attempt of COMMAND_RE: the `\A` alternative first, then
the `\s` alternative. -/
def tryMatchAt (atStart : Bool) (l : List Char) : Option (String × List Char) :=
  match tryStart atStart l with
  | some r => some r
  | none => trySpace l

theorem findCmd_length {ws : List String} {l : List Char} {w : String}
    {rem : List Char} (h : findCmd ws l = some (w, rem)) :
    rem.length ≤ l.length := by
  induction ws with
  | nil => simp [findCmd] at h
  | cons x xs ih =>
    simp only [findCmd] at h
    split at h
    · split at h
      · cases h
        simp only [List.length_drop]
        omega
      · exact ih h
    · exact ih h

theorem tryMatchAt_length {b : Bool} {l : List Char} {w : String}
    {rem : List Char} (h : tryMatchAt b l = some (w, rem)) :
    rem.length < l.length := by
  unfold tryMatchAt at h
  split at h
  · rename_i r hs
    cases h
    unfold tryStart at hs
    split at hs
    · rename_i rest
      have := findCmd_length hs
      simp only [List.length_cons]
      omega
    · exact absurd hs (by simp)
  · unfold trySpace at h
    split at h
    · rename_i c rest
      split at h
      · have := findCmd_length h
        simp only [List.length_cons]
        omega
      · exact absurd h (by simp)
    · exact absurd h (by simp)

/-- `COMMAND_RE.findall` as a left-to-right non-overlapping scan: attempt a
match at the current position; on success record the group and continue after
the matched text, else advance one character. Every step strictly shortens
the text, so the structural fuel never runs out when it starts at
`l.length + 1`; the fuel only makes the recursion structural. -/
def findallAux : Nat → List Char → Bool → List String
  | 0, _, _ => []
  | fuel + 1, l, atStart =>
    match l with
    | [] => []
    | c :: rest =>
      match tryMatchAt atStart (c :: rest) with
      | some (w, rem) => w :: findallAux fuel rem false
      | none => findallAux fuel rest false

/-- `COMMAND_RE.findall(text)`. -/
def findall (s : String) : List String :=
  findallAux (s.data.length + 1) s.data true

/-- `set(COMMAND_RE.findall(comment.body))`: the distinct captured commands,
as a duplicate-free list in first-occurrence order. -/
def parseCommands (s : String) : List String := (findall s).dedup

/-- Spec-side predicate (from the claim's words): the command `w`, prefixed by
`!`, occurs in the text with the `!` at index `i`, delimited on the left by
the string start or a whitespace character and on the right by the string end
or a whitespace character. -/
def tokenAt (chars : List Char) (w : String) (i : Nat) : Bool :=
  (decide (i = 0) ||
    (match (chars.take i).getLast? with
     | some c => isPySpace c
     | none => false)) &&
  ('!' :: w.data).isPrefixOf (chars.drop i) &&
  lookaheadOk (chars.drop (i + 1 + w.data.length))

/-- Spec-side predicate: the text contains `!w` as a whole token, delimited by
whitespace or string boundaries on both sides. -/
def hasToken (chars : List Char) (w : String) : Bool :=
  (List.range (chars.length + 1)).any (fun i => tokenAt chars w i)

/-- Spec-side set of distinct recognized command tokens of a text. -/
def distinctTokens (s : String) : List String :=
  AVAILABLE_COMMANDS.filter (fun w => hasToken s.data w)

/-! ## The Members copy inside bot.py

bot.py defines its own class Members (no interested roster) after class Bot
and never imports hackday_bot.members, so `Bot.__init__`'s `Members(subreddit)`
resolves to this copy. -/

/-- The per-url record of bot.py's Members: title and assignees only. -/
structure ProjectB where
  title : String
  assignees : List String
deriving DecidableEq, Repr

abbrev ProjectsB := List (String × ProjectB)

/-- Block of lines bot.py's `_save_projects` emits for one kept project. -/
def projectLinesB (url : String) (p : ProjectB) : List (List Char) :=
  headingLine url p.title :: (pySorted p.assignees).map assigneeLine

/-- Sort key of bot.py's `_save_projects`. -/
def titleLeB (a b : String × ProjectB) : Prop := pyLe a.2.title b.2.title

instance : DecidableRel titleLeB := fun a b => by
  unfold titleLeB; infer_instance

instance : IsTotal (String × ProjectB) titleLeB :=
  ⟨fun a b => pyCharsLe_total a.2.title.data b.2.title.data⟩

instance : IsTrans (String × ProjectB) titleLeB :=
  ⟨fun _ _ _ h1 h2 => pyCharsLe_trans _ _ _ h1 h2⟩

/-- Loop body of bot.py's `_save_projects`: `continue` when the assignee set
is empty. -/
def saveStepB (lines : List (List Char)) (entry : String × ProjectB) :
    List (List Char) :=
  if entry.2.assignees = [] then lines
  else lines ++ projectLinesB entry.1 entry.2

/-- bot.py `Members._save_projects`: the document written to the wiki page. -/
def saveProjectsB (ps : ProjectsB) : String :=
  String.mk (joinNl ((List.insertionSort titleLeB ps).foldl saveStepB []))

/-- One line of bot.py's `Members._load_projects` (no INTERESTED branch). -/
def loadLineB (st : ProjectsB × Option String) (rawLine : List Char) :
    Except PyErr (ProjectsB × Option String) :=
  let line := pyStrip rawLine
  if "#".data.isPrefixOf line then
    match splitBracket ((line.drop 3).dropLast) with
    | [t, u] =>
      let url := String.mk u
      .ok (dictSet url ⟨String.mk t, []⟩ st.1, some url)
    | _ => .error .valueError
  else if "*".data.isPrefixOf line then
    match afterLastSlash line with
    | .error e => .error e
    | .ok username =>
      match st.2 with
      | none => .error .keyError
      | some url =>
        match dictGet url st.1 with
        | none => .error .keyError
        | some p =>
          .ok (dictSet url { p with assignees := setAdd username p.assignees } st.1,
            st.2)
  else
    .ok st

/-- bot.py `Members._load_projects`. -/
def loadProjectsB (content : String) : Except PyErr ProjectsB := do
  let st ← (splitNl content.data).foldlM loadLineB (([] : ProjectsB), (none : Option String))
  pure st.1

/-- Result of a bot.py ledger operation. -/
structure MembersResultB where
  message : String
  projects : ProjectsB
  writes : List WikiWrite
deriving DecidableEq, Repr

/-- bot.py `Members._comment_info` (setdefault with title and assignees). -/
def commentInfoB (ps : ProjectsB) (c : Comment) : ProjectsB × ProjectB :=
  match dictGet c.link_url ps with
  | some p => (ps, p)
  | none => (ps ++ [(c.link_url, ⟨c.link_title, []⟩)], ⟨c.link_title, []⟩)

/-- bot.py `Members.add`. -/
def membersAddB (ps : ProjectsB) (c : Comment) : MembersResultB :=
  let info := commentInfoB ps c
  let user := c.author
  if user ∈ info.2.assignees then
    ⟨"You have already joined this project.", info.1, []⟩
  else
    let ps2 := dictSet c.link_url
      { info.2 with assignees := setAdd user info.2.assignees } info.1
    ⟨"You have successfully joined the project.", ps2,
      [⟨saveProjectsB ps2, "join " ++ user ++ " to " ++ c.link_id⟩]⟩

/-- bot.py `Members.remove`. -/
def membersRemoveB (ps : ProjectsB) (c : Comment) : MembersResultB :=
  let info := commentInfoB ps c
  let user := c.author
  if user ∈ info.2.assignees then
    let ps2 := dictSet c.link_url
      { info.2 with assignees := setRemove user info.2.assignees } info.1
    ⟨"You have been removed from the project.", ps2,
      [⟨saveProjectsB ps2, "leave " ++ user ++ " from " ++ c.link_id⟩]⟩
  else
    ⟨"You have not joined this project.", info.1, []⟩

/-- bot.py `Members.__init__` (same shape as the members.py one). -/
def membersInitB (page : WikiPage) : Except PyErr (ProjectsB × List InitEffect) :=
  match page with
  | .absent =>
    .ok ([], [.create "projects" "", .edit ⟨saveProjectsB [], "test"⟩])
  | .content text =>
    match loadProjectsB text with
    | .error e => .error e
    | .ok ps => .ok (ps, [.edit ⟨saveProjectsB ps, "test"⟩])

/-! ## Bot event loop (src/hackday_bot/bot.py, class Bot) -/

/-- Externally visible actions the bot performs. -/
inductive Effect where
  | reply (text : String)
  | wikiEdit (w : WikiWrite)
  | sleep (seconds : Nat)
  | saveSeenFile (ids : List String)
deriving DecidableEq, Repr

/-- The reply of `Bot._command_help`: the table over
`sorted(AVAILABLE_COMMANDS.items())`; the dict is already in ascending key
order, so sorting returns it unchanged. -/
def helpMessage : String :=
  String.intercalate "\n"
    ("command|description" :: ":---|:---" ::
      AVAILABLE_COMMANDS_DICT.map (fun cd => "!" ++ cd.1 ++ "|" ++ cd.2))

/-- `getattr(self, '_command_' + command)(comment)` for the five recognized
commands (the parser never produces any other name): the new members state
and the effects, in execution order (ledger writes happen inside
`members.add`/`members.remove` before the reply is posted). -/
def dispatchCommand (m : ProjectsB) (c : Comment) : String → ProjectsB × List Effect
  | "help" => (m, [.reply helpMessage])
  | "interested" => (m, [.reply "soon I will record your interest"])
  | "join" =>
    let r := membersAddB m c
    (r.projects, r.writes.map .wikiEdit ++ [.reply r.message])
  | "leave" =>
    let r := membersRemoveB m c
    (r.projects, r.writes.map .wikiEdit ++ [.reply r.message])
  | "uninterested" => (m, [.reply "soon I will record your uninterest"])
  | _ => (m, [])

/-- `Bot._handle_comment`: parse the body; more than one distinct command
gets only the fixed reply; exactly one dispatches to its handler; zero does
nothing. -/
def handleComment (m : ProjectsB) (c : Comment) : ProjectsB × List Effect :=
  let commands := parseCommands c.body
  if commands.length > 1 then
    (m, [.reply "Please provide only a single command."])
  else
    match commands with
    | [cmd] => dispatchCommand m c cmd
    | _ => (m, [])

/-- The in-memory state `Bot.run` threads through the loop. -/
structure BotState where
  seen : List String
  members : ProjectsB
deriving DecidableEq, Repr

/-- The body of `for comment in self.subreddit.stream.comments()` in
`Bot.run`: skip a comment whose id is already seen, else handle it and only
then add its id to the seen set. -/
def processComment (st : BotState) (c : Comment) : BotState × List Effect :=
  if c.id ∈ st.seen then (st, [])
  else
    let hm := handleComment st.members c
    (⟨setAdd c.id st.seen, hm.1⟩, hm.2)

/-- What the external world delivers to `Bot.run`: a comment from the stream,
a PrawcoreException, or a KeyboardInterrupt. -/
inductive StreamEvent where
  | comm (c : Comment)
  | apiFault
  | interrupt
deriving DecidableEq, Repr

/-- `Bot.run` over a finite schedule of stream events. A comment is processed
by `processComment`; a PrawcoreException is logged, `time.sleep(10)` runs and
the while loop re-subscribes and continues with the seen set intact; a
KeyboardInterrupt sets `running = False`, after which
`_save_seen_comments()` writes the sorted seen set and `run` returns 0. An
exhausted schedule models a stream still blocked waiting: no exit value. -/
def runBot (st : BotState) : List StreamEvent → List Effect × Option Nat
  | [] => ([], none)
  | .comm c :: evs =>
    let pc := processComment st c
    let rest := runBot pc.1 evs
    (pc.2 ++ rest.1, rest.2)
  | .apiFault :: evs =>
    let rest := runBot st evs
    (.sleep 10 :: rest.1, rest.2)
  | .interrupt :: _ =>
    ([.saveSeenFile (pySorted st.seen)], some 0)

/-! ## Seen-comment file (Bot._load_seen_comments) -/

/-- A parsed JSON document; the json module's textual parsing is abstracted:
loading the file either fails to parse or yields such a value. -/
inductive JsonVal where
  | null
  | bool (b : Bool)
  | num (n : Int)
  | str (s : String)
  | arr (elems : List JsonVal)
  | obj (fields : List (String × JsonVal))
deriving Repr

/-- The seen-comments file as `open` + `json.load` find it: missing
(FileNotFoundError), malformed (json.decoder.JSONDecodeError), or parseable
to a JSON value. -/
inductive SeenFile where
  | missing
  | malformed
  | parsed (v : JsonVal)
deriving Repr

/-- Whether a parsed JSON value is hashable in Python: the containers
`json.load` can produce (lists and dicts) are unhashable; null, booleans,
numbers and strings are hashable. -/
def JsonVal.hashable : JsonVal → Bool
  | .arr _ => false
  | .obj _ => false
  | _ => true

/-- `Bot._load_seen_comments`: FileNotFoundError and JSONDecodeError are
caught and yield the empty set; otherwise `set(json.load(fp))` iterates the
parsed value (array elements, string characters, object keys) into a set.
`set()` raises an uncaught TypeError on a non-iterable value (null,
booleans, numbers), and also when an iterated element is unhashable (a
nested array or object); string characters and object keys are always
hashable strings. The resulting Python set is modelled by the list of
iterated values: only membership is ever consulted, so the duplicates
`set()` collapses are immaterial. -/
def loadSeenComments : SeenFile → Except PyErr (List JsonVal)
  | .missing => .ok []
  | .malformed => .ok []
  | .parsed v =>
    match v with
    | .arr elems =>
      if elems.all JsonVal.hashable then .ok elems else .error .typeError
    | .str s => .ok (s.data.map (fun ch => JsonVal.str (String.mk [ch])))
    | .obj fields => .ok (fields.map (fun f => JsonVal.str f.1))
    | _ => .error .typeError

/-! ## Lemmas about the dict and set models -/

theorem dictGet_dictSet_self {α : Type} (url : String) (p : α)
    (ps : List (String × α)) :
    dictGet url (dictSet url p ps) = some p := by
  induction ps with
  | nil => simp [dictGet, dictSet]
  | cons hd rest ih =>
    obtain ⟨u, q⟩ := hd
    by_cases h : u = url
    · simp [dictSet, dictGet, h]
    · simp [dictSet, dictGet, h, ih]

theorem dictGet_dictSet_ne {α : Type} (url url2 : String) (h : url ≠ url2)
    (p : α) (ps : List (String × α)) :
    dictGet url2 (dictSet url p ps) = dictGet url2 ps := by
  induction ps with
  | nil => simp [dictGet, dictSet, h]
  | cons hd rest ih =>
    obtain ⟨u, q⟩ := hd
    by_cases hu : u = url
    · subst hu
      simp [dictSet, dictGet, h]
    · simp [dictSet, dictGet, hu, ih]

theorem dictGet_append_self {α : Type} (url : String) (p : α)
    (ps : List (String × α)) (h : dictGet url ps = none) :
    dictGet url (ps ++ [(url, p)]) = some p := by
  induction ps with
  | nil => simp [dictGet]
  | cons hd rest ih =>
    obtain ⟨u, q⟩ := hd
    simp only [List.cons_append, dictGet] at h ⊢
    by_cases hu : u = url
    · simp [hu] at h
    · simp only [if_neg hu] at h ⊢
      exact ih h

theorem dictGet_append_ne {α : Type} (url k : String) (h : url ≠ k) (v : α)
    (ps : List (String × α)) :
    dictGet url (ps ++ [(k, v)]) = dictGet url ps := by
  induction ps with
  | nil => simp [dictGet, Ne.symm h]
  | cons hd rest ih =>
    obtain ⟨u, q⟩ := hd
    by_cases hq : u = url
    · simp [dictGet, hq]
    · simp [dictGet, hq, ih]

theorem setAdd_of_mem {x : String} {l : List String} (h : x ∈ l) :
    setAdd x l = l := by
  simp [setAdd, h]

theorem setAdd_of_not_mem {x : String} {l : List String} (h : x ∉ l) :
    setAdd x l = l ++ [x] := by
  simp [setAdd, h]

theorem mem_setAdd_self (x : String) (l : List String) : x ∈ setAdd x l := by
  by_cases h : x ∈ l
  · rw [setAdd_of_mem h]; exact h
  · rw [setAdd_of_not_mem h]; simp

theorem setAdd_nodup {x : String} {l : List String} (h : l.Nodup) :
    (setAdd x l).Nodup := by
  by_cases hm : x ∈ l
  · rw [setAdd_of_mem hm]; exact h
  · rw [setAdd_of_not_mem hm]
    simp [List.nodup_append, h, hm]

theorem count_setAdd_self {x : String} {l : List String} (h : l.Nodup) :
    (setAdd x l).count x = 1 :=
  List.count_eq_one_of_mem (setAdd_nodup h) (mem_setAdd_self x l)

/-- The assignee roster the ledger effectively holds for a url (empty when
the url has no entry). -/
def assigneesOf (ps : Projects) (url : String) : List String :=
  match dictGet url ps with
  | some p => p.assignees
  | none => []

/-- The interested roster the ledger effectively holds for a url. -/
def interestedOf (ps : Projects) (url : String) : List String :=
  match dictGet url ps with
  | some p => p.interested
  | none => []

theorem commentInfo_assignees (ps : Projects) (c : Comment) :
    (commentInfo ps c).2.assignees = assigneesOf ps c.link_url := by
  unfold commentInfo assigneesOf
  cases h : dictGet c.link_url ps <;> simp [h]

theorem commentInfo_interested (ps : Projects) (c : Comment) :
    (commentInfo ps c).2.interested = interestedOf ps c.link_url := by
  unfold commentInfo interestedOf
  cases h : dictGet c.link_url ps <;> simp [h]

theorem commentInfo_get (ps : Projects) (c : Comment) :
    dictGet c.link_url (commentInfo ps c).1 = some (commentInfo ps c).2 := by
  unfold commentInfo
  cases h : dictGet c.link_url ps with
  | some p => simp [h]
  | none => simp [h, dictGet_append_self _ _ _ h]

theorem assigneesOf_eq_of_get {ps : Projects} {url : String} {p : Project}
    (h : dictGet url ps = some p) : assigneesOf ps url = p.assignees := by
  unfold assigneesOf
  rw [h]

theorem interestedOf_eq_of_get {ps : Projects} {url : String} {p : Project}
    (h : dictGet url ps = some p) : interestedOf ps url = p.interested := by
  unfold interestedOf
  rw [h]

theorem commentInfo_rosters (ps : Projects) (c : Comment) (url : String) :
    assigneesOf (commentInfo ps c).1 url = assigneesOf ps url ∧
      interestedOf (commentInfo ps c).1 url = interestedOf ps url := by
  unfold commentInfo
  cases h : dictGet c.link_url ps with
  | some p => simp
  | none =>
    by_cases hu : url = c.link_url
    · subst hu
      unfold assigneesOf interestedOf
      rw [dictGet_append_self _ _ _ h, h]
      exact ⟨rfl, rfl⟩
    · unfold assigneesOf interestedOf
      rw [dictGet_append_ne url c.link_url hu _ ps]
      exact ⟨rfl, rfl⟩

/-- After `Members.add`, the roster for the comment's url is exactly the
old roster with the author set-added, in both branches. -/
theorem membersAdd_assigneesOf (ps : Projects) (c : Comment) :
    assigneesOf (membersAdd ps c).projects c.link_url =
      setAdd c.author (assigneesOf ps c.link_url) := by
  by_cases h : c.author ∈ assigneesOf ps c.link_url
  · have hmem : c.author ∈ (commentInfo ps c).2.assignees := by
      rw [commentInfo_assignees]
      exact h
    simp only [membersAdd, if_pos hmem]
    rw [assigneesOf_eq_of_get (commentInfo_get ps c), commentInfo_assignees,
      setAdd_of_mem h]
  · have hmem : c.author ∉ (commentInfo ps c).2.assignees := by
      rw [commentInfo_assignees]
      exact h
    simp only [membersAdd, if_neg hmem]
    rw [assigneesOf_eq_of_get (dictGet_dictSet_self _ _ _)]
    simp only [commentInfo_assignees]

theorem commentInfo_of_get {ps : Projects} {c : Comment} {p : Project}
    (h : dictGet c.link_url ps = some p) : commentInfo ps c = (ps, p) := by
  unfold commentInfo
  rw [h]

theorem membersAdd_url_present (ps : Projects) (c : Comment) :
    ∃ p, dictGet c.link_url (membersAdd ps c).projects = some p := by
  by_cases h : c.author ∈ (commentInfo ps c).2.assignees
  · exact ⟨(commentInfo ps c).2, by simp only [membersAdd, if_pos h]; exact commentInfo_get ps c⟩
  · exact ⟨_, by simp only [membersAdd, if_neg h]; exact dictGet_dictSet_self _ _ _⟩

/-- A sample comment used to instantiate witnesses. -/
def cSample : Comment :=
  ⟨"c1", "alice", "!join the project", "u1", "Title", "t3_abc"⟩

/-- C3: join twice leaves exactly one roster entry for the user and the
second call reports already-joined, mutating nothing and writing nothing;
leave for a user not in the roster reports not-joined, mutates nothing and
writes nothing. The Nodup hypothesis states that the modelled roster is a
Python set. -/
theorem claim_C3 (ps : Projects) (c : Comment)
    (hset : (assigneesOf ps c.link_url).Nodup) :
    ((assigneesOf (membersAdd (membersAdd ps c).projects c).projects
        c.link_url).count c.author = 1 ∧
      (membersAdd (membersAdd ps c).projects c).message =
        "You have already joined this project." ∧
      (membersAdd (membersAdd ps c).projects c).projects =
        (membersAdd ps c).projects ∧
      (membersAdd (membersAdd ps c).projects c).writes = []) ∧
    (c.author ∉ assigneesOf ps c.link_url →
      (membersRemove ps c).message = "You have not joined this project." ∧
      assigneesOf (membersRemove ps c).projects c.link_url =
        assigneesOf ps c.link_url ∧
      (membersRemove ps c).writes = []) := by
  constructor
  · obtain ⟨p1, hget⟩ := membersAdd_url_present ps c
    have hro := membersAdd_assigneesOf ps c
    generalize hr1 : membersAdd ps c = r1 at hget hro ⊢
    have hp1 : p1.assignees = setAdd c.author (assigneesOf ps c.link_url) := by
      rw [← hro, assigneesOf_eq_of_get hget]
    have hci := commentInfo_of_get hget
    have hmemp : c.author ∈ p1.assignees := by
      rw [hp1]
      exact mem_setAdd_self _ _
    refine ⟨?_, ?_, ?_, ?_⟩
    · simp only [membersAdd, hci, hmemp, if_true]
      rw [hro]
      exact count_setAdd_self hset
    · simp only [membersAdd, hci, hmemp, if_true]
    · simp only [membersAdd, hci, hmemp, if_true]
    · simp only [membersAdd, hci, hmemp, if_true]
  · intro h
    have hmem : c.author ∉ (commentInfo ps c).2.assignees := by
      rw [commentInfo_assignees]
      exact h
    refine ⟨?_, ?_, ?_⟩
    · simp only [membersRemove, if_neg hmem]
    · simp only [membersRemove, if_neg hmem]
      exact (commentInfo_rosters ps c c.link_url).1
    · simp only [membersRemove, if_neg hmem]

theorem claim_C3_witness :
    (assigneesOf ([] : Projects) "u1").Nodup ∧
    (((assigneesOf (membersAdd (membersAdd [] cSample).projects cSample).projects
        cSample.link_url).count cSample.author = 1 ∧
      (membersAdd (membersAdd [] cSample).projects cSample).message =
        "You have already joined this project." ∧
      (membersAdd (membersAdd [] cSample).projects cSample).projects =
        (membersAdd [] cSample).projects ∧
      (membersAdd (membersAdd [] cSample).projects cSample).writes = []) ∧
     (cSample.author ∉ assigneesOf [] cSample.link_url →
      (membersRemove [] cSample).message = "You have not joined this project." ∧
      assigneesOf (membersRemove [] cSample).projects cSample.link_url =
        assigneesOf [] cSample.link_url ∧
      (membersRemove [] cSample).writes = [])) :=
  ⟨by decide, claim_C3 [] cSample (by decide)⟩

/-- C5: every state-changing mutation immediately performs exactly one remote
write whose content is the full serialization of the new in-memory state and
whose reason names the mutation. -/
theorem claim_C5 (ps : Projects) (c : Comment) :
    (c.author ∉ assigneesOf ps c.link_url →
      (membersAdd ps c).writes =
        [⟨saveProjects (membersAdd ps c).projects,
          "join " ++ c.author ++ " to " ++ c.link_id⟩]) ∧
    (c.author ∉ interestedOf ps c.link_url →
      (membersAddInterest ps c).writes =
        [⟨saveProjects (membersAddInterest ps c).projects,
          c.author ++ " interested in " ++ c.link_id⟩]) ∧
    (c.author ∈ assigneesOf ps c.link_url →
      (membersRemove ps c).writes =
        [⟨saveProjects (membersRemove ps c).projects,
          "leave " ++ c.author ++ " from " ++ c.link_id⟩]) := by
  refine ⟨?_, ?_, ?_⟩
  · intro h
    have hmem : c.author ∉ (commentInfo ps c).2.assignees := by
      rw [commentInfo_assignees]
      exact h
    simp only [membersAdd, if_neg hmem, saveProjectsEdits]
  · intro h
    have hmem : c.author ∉ (commentInfo ps c).2.interested := by
      rw [commentInfo_interested]
      exact h
    simp only [membersAddInterest, if_neg hmem, saveProjectsEdits]
  · intro h
    have hmem : c.author ∈ (commentInfo ps c).2.assignees := by
      rw [commentInfo_assignees]
      exact h
    simp only [membersRemove, if_pos hmem, saveProjectsEdits]

theorem claim_C5_witness :
    (cSample.author ∉ assigneesOf ([] : Projects) cSample.link_url ∧
     cSample.author ∉ interestedOf ([] : Projects) cSample.link_url ∧
     cSample.author ∈ assigneesOf (membersAdd [] cSample).projects cSample.link_url) ∧
    ((membersAdd [] cSample).writes =
      [⟨saveProjects (membersAdd [] cSample).projects,
        "join " ++ cSample.author ++ " to " ++ cSample.link_id⟩]) ∧
    ((membersAddInterest [] cSample).writes =
      [⟨saveProjects (membersAddInterest [] cSample).projects,
        cSample.author ++ " interested in " ++ cSample.link_id⟩]) ∧
    ((membersRemove (membersAdd [] cSample).projects cSample).writes =
      [⟨saveProjects (membersRemove (membersAdd [] cSample).projects cSample).projects,
        "leave " ++ cSample.author ++ " from " ++ cSample.link_id⟩]) :=
  ⟨⟨by decide, by decide, by decide⟩,
    (claim_C5 [] cSample).1 (by decide),
    (claim_C5 [] cSample).2.1 (by decide),
    (claim_C5 (membersAdd [] cSample).projects cSample).2.2 (by decide)⟩

/-- C9: constructing the Members ledger always ends by overwriting the
remote projects page with the serialization of the just-loaded state (the
empty state when the page was absent and had to be created), with the
literal reason string 'test' — a remote write at startup with no mutation.
Holds for the members.py class and for the copy in bot.py that Bot uses. -/
theorem claim_C9 :
    (∀ text ps, loadProjects text = .ok ps →
      membersInit (.content text) =
        .ok (ps, [.edit ⟨saveProjects ps, "test"⟩])) ∧
    membersInit .absent =
      .ok ([], [.create "projects" "", .edit ⟨saveProjects [], "test"⟩]) ∧
    saveProjects [] = "" ∧
    (∀ text ps, loadProjectsB text = .ok ps →
      membersInitB (.content text) =
        .ok (ps, [.edit ⟨saveProjectsB ps, "test"⟩])) ∧
    membersInitB .absent =
      .ok ([], [.create "projects" "", .edit ⟨saveProjectsB [], "test"⟩]) := by
  refine ⟨?_, rfl, rfl, ?_, rfl⟩
  · intro text ps h
    simp [membersInit, h]
  · intro text ps h
    simp [membersInitB, h]

theorem claim_C9_witness :
    loadProjects "# [T](u1)\n* /u/alice" = .ok [("u1", ⟨"T", ["alice"], []⟩)] ∧
    membersInit (.content "# [T](u1)\n* /u/alice") =
      .ok ([("u1", ⟨"T", ["alice"], []⟩)],
        [.edit ⟨saveProjects [("u1", ⟨"T", ["alice"], []⟩)], "test"⟩]) ∧
    loadProjectsB "" = .ok [] ∧
    membersInitB (.content "") = .ok ([], [.edit ⟨saveProjectsB [], "test"⟩]) :=
  ⟨by decide, claim_C9.1 "# [T](u1)\n* /u/alice" [("u1", ⟨"T", ["alice"], []⟩)] (by decide),
    by decide, claim_C9.2.2.2.1 "" [] (by decide)⟩

/-- C10: a comment with exactly the interested (resp. uninterested) command
gets only the fixed static reply; the ledger state is untouched, no wiki
write happens, and no add_interest-like operation is reached (bot.py's
Members, the class Bot instantiates, does not even define add_interest). -/
theorem claim_C10 (st : BotState) (c : Comment) (hid : c.id ∉ st.seen) :
    (parseCommands c.body = ["interested"] →
      processComment st c =
        (⟨setAdd c.id st.seen, st.members⟩,
          [.reply "soon I will record your interest"])) ∧
    (parseCommands c.body = ["uninterested"] →
      processComment st c =
        (⟨setAdd c.id st.seen, st.members⟩,
          [.reply "soon I will record your uninterest"])) := by
  constructor <;> intro h <;>
    · simp only [processComment, if_neg hid, handleComment, h]
      rfl

theorem claim_C10_witness :
    (("c9" : String) ∉ (["c1"] : List String) ∧
      parseCommands "!interested" = ["interested"]) ∧
    processComment ⟨["c1"], []⟩ ⟨"c9", "bob", "!interested", "u1", "T", "l1"⟩ =
      (⟨setAdd "c9" ["c1"], []⟩, [.reply "soon I will record your interest"]) :=
  ⟨⟨by decide, by decide⟩,
    (claim_C10 ⟨["c1"], []⟩ ⟨"c9", "bob", "!interested", "u1", "T", "l1"⟩
      (by decide)).1 (by decide)⟩

/-- C8 counterexample to never-crashes: the file content `5` is valid JSON
(neither missing nor malformed), `json.load` succeeds, and `set(5)` raises a
TypeError that `_load_seen_comments` does not catch. -/
theorem claim_C8_cex :
    loadSeenComments (.parsed (.num 5)) = .error .typeError := rfl

/-- C8 (amended): a missing file and malformed content both load as the
empty set, and a parsed JSON array whose elements are all hashable (such as
an array of string identifiers) yields exactly the set of its elements; but
parsed non-iterable JSON (null, a boolean, a number) raises an uncaught
TypeError from `set()`, and so does an array containing an unhashable
element (a nested array or object). -/
theorem claim_C8 :
    loadSeenComments .missing = .ok [] ∧
    loadSeenComments .malformed = .ok [] ∧
    (∀ elems, elems.all JsonVal.hashable = true →
      loadSeenComments (.parsed (.arr elems)) = .ok elems) ∧
    (∀ elems, elems.all JsonVal.hashable = false →
      loadSeenComments (.parsed (.arr elems)) = .error .typeError) ∧
    (∀ n, loadSeenComments (.parsed (.num n)) = .error .typeError) ∧
    (∀ b, loadSeenComments (.parsed (.bool b)) = .error .typeError) ∧
    loadSeenComments (.parsed .null) = .error .typeError := by
  refine ⟨rfl, rfl, ?_, ?_, fun _ => rfl, fun _ => rfl, rfl⟩
  · intro elems h
    simp [loadSeenComments, h]
  · intro elems h
    simp [loadSeenComments, h]

theorem claim_C8_witness :
    ([JsonVal.str "c1", JsonVal.str "c2"].all JsonVal.hashable = true ∧
      [JsonVal.arr []].all JsonVal.hashable = false) ∧
    loadSeenComments (.parsed (.arr [JsonVal.str "c1", JsonVal.str "c2"])) =
      .ok [JsonVal.str "c1", JsonVal.str "c2"] ∧
    loadSeenComments (.parsed (.arr [JsonVal.arr []])) = .error .typeError :=
  ⟨⟨rfl, rfl⟩,
    claim_C8.2.2.1 [JsonVal.str "c1", JsonVal.str "c2"] rfl,
    claim_C8.2.2.2.1 [JsonVal.arr []] rfl⟩

/-- C7: a PrawcoreException is caught, the loop sleeps the fixed 10 seconds
and resumes with the same state (so previously seen comments remain
skipped); a KeyboardInterrupt stops the loop, flushes the sorted seen set to
disk once, and run returns exit code 0; an already-seen comment is skipped
with no effects at all. -/
theorem claim_C7 (st : BotState) (evs : List StreamEvent) (c : Comment) :
    runBot st (.apiFault :: evs) =
      (.sleep 10 :: (runBot st evs).1, (runBot st evs).2) ∧
    runBot st (.interrupt :: evs) =
      ([.saveSeenFile (pySorted st.seen)], some 0) ∧
    (c.id ∈ st.seen → runBot st (.comm c :: evs) = runBot st evs) := by
  refine ⟨rfl, rfl, fun h => ?_⟩
  simp [runBot, processComment, h]

theorem claim_C7_witness :
    ("c1" : String) ∈ (["c1"] : List String) ∧
    runBot ⟨["c1"], []⟩ (.comm ⟨"c1", "bob", "!join", "u1", "T", "l1"⟩ :: []) =
      runBot ⟨["c1"], []⟩ [] :=
  ⟨by decide,
    (claim_C7 ⟨["c1"], []⟩ [] ⟨"c1", "bob", "!join", "u1", "T", "l1"⟩).2.2
      (by decide)⟩

/-- C2: the loop body per comment: an already-seen id is skipped entirely
(no parse, no reply, no ledger change); otherwise more than one distinct
command yields only the fixed single-command reply and leaves the ledger
untouched; exactly one command dispatches to that command's handler, whose
effects (ledger writes then reply) are performed; zero commands do nothing;
and in each non-skip case the id is added to the seen set afterwards. -/
theorem claim_C2 (st : BotState) (c : Comment) :
    (c.id ∈ st.seen → processComment st c = (st, [])) ∧
    (c.id ∉ st.seen →
      ((parseCommands c.body).length > 1 →
        processComment st c =
          (⟨setAdd c.id st.seen, st.members⟩,
            [.reply "Please provide only a single command."])) ∧
      (∀ cmd, parseCommands c.body = [cmd] →
        processComment st c =
          (⟨setAdd c.id st.seen, (dispatchCommand st.members c cmd).1⟩,
            (dispatchCommand st.members c cmd).2)) ∧
      (parseCommands c.body = [] →
        processComment st c = (⟨setAdd c.id st.seen, st.members⟩, []))) := by
  constructor
  · intro h
    simp [processComment, h]
  · intro h
    refine ⟨?_, ?_, ?_⟩
    · intro hgt
      simp only [processComment, if_neg h, handleComment, if_pos hgt]
    · intro cmd hcmd
      have hlen : ¬ ([cmd] : List String).length > 1 := by simp
      simp only [processComment, if_neg h, handleComment, hcmd, if_neg hlen]
    · intro hzero
      have hlen : ¬ ([] : List String).length > 1 := by simp
      simp only [processComment, if_neg h, handleComment, hzero, if_neg hlen]

theorem claim_C2_witness :
    (("c1" : String) ∈ (["c1"] : List String) ∧
      ("c9" : String) ∉ (["c1"] : List String) ∧
      (parseCommands "!join !leave").length > 1 ∧
      parseCommands "!help" = ["help"] ∧
      parseCommands "hello" = []) ∧
    processComment ⟨["c1"], []⟩ ⟨"c1", "bob", "!join", "u1", "T", "l1"⟩ =
      (⟨["c1"], []⟩, []) ∧
    processComment ⟨["c1"], []⟩ ⟨"c9", "bob", "!join !leave", "u1", "T", "l1"⟩ =
      (⟨setAdd "c9" ["c1"], []⟩,
        [.reply "Please provide only a single command."]) ∧
    processComment ⟨["c1"], []⟩ ⟨"c9", "bob", "!help", "u1", "T", "l1"⟩ =
      (⟨setAdd "c9" ["c1"],
        (dispatchCommand [] ⟨"c9", "bob", "!help", "u1", "T", "l1"⟩ "help").1⟩,
        (dispatchCommand [] ⟨"c9", "bob", "!help", "u1", "T", "l1"⟩ "help").2) ∧
    processComment ⟨["c1"], []⟩ ⟨"c9", "bob", "hello", "u1", "T", "l1"⟩ =
      (⟨setAdd "c9" ["c1"], []⟩, []) :=
  ⟨⟨by decide, by decide, by decide, by decide, by decide⟩,
    (claim_C2 ⟨["c1"], []⟩ ⟨"c1", "bob", "!join", "u1", "T", "l1"⟩).1 (by decide),
    ((claim_C2 ⟨["c1"], []⟩ ⟨"c9", "bob", "!join !leave", "u1", "T", "l1"⟩).2
      (by decide)).1 (by decide),
    ((claim_C2 ⟨["c1"], []⟩ ⟨"c9", "bob", "!help", "u1", "T", "l1"⟩).2
      (by decide)).2.1 "help" (by decide),
    ((claim_C2 ⟨["c1"], []⟩ ⟨"c9", "bob", "hello", "u1", "T", "l1"⟩).2
      (by decide)).2.2 (by decide)⟩

/-- Spec-side serialization (the claim's words): iterate topics sorted by
title, skip every topic whose two rosters are both empty, emit per topic a
heading with `[title](url)` then one bulleted line per assignee in sorted
order then one [INTERESTED]-marked bulleted line per interested user in
sorted order, and join everything with newlines. -/
def saveProjectsSpec (ps : Projects) : String :=
  String.mk (joinNl
    (((sortByTitle ps).filter
        (fun e => !(e.2.assignees.isEmpty && e.2.interested.isEmpty))).flatMap
      (fun e => projectLines e.1 e.2)))

theorem foldl_saveStep (l : Projects) (acc : List (List Char)) :
    l.foldl saveStep acc =
      acc ++ (l.filter
          (fun e => !(e.2.assignees.isEmpty && e.2.interested.isEmpty))).flatMap
        (fun e => projectLines e.1 e.2) := by
  induction l generalizing acc with
  | nil => simp
  | cons e rest ih =>
    rw [List.foldl_cons, ih]
    by_cases h : e.2.assignees = [] ∧ e.2.interested = []
    · have hb : (!(e.2.assignees.isEmpty && e.2.interested.isEmpty)) = false := by
        simp [h.1, h.2]
      simp [saveStep, h, List.filter_cons, hb]
    · have hb : (!(e.2.assignees.isEmpty && e.2.interested.isEmpty)) = true := by
        rcases not_and_or.mp h with h1 | h1 <;>
          simp [List.isEmpty_iff, h1]
      have h2 : ¬e.2.assignees = [] ∨ ¬e.2.interested = [] := not_and_or.mp h
      simp [saveStep, h, List.filter_cons, hb, h2]

/-- C4: the document `_save_projects` writes is exactly the claim's layout:
topics in title-sorted order, empty-rostered topics skipped, heading then
sorted assignee bullets then sorted [INTERESTED] bullets, joined by
newlines; and the remote update is a single whole-document edit tagged with
the supplied reason. -/
theorem claim_C4 (ps : Projects) (reason : String) :
    saveProjects ps = saveProjectsSpec ps ∧
    List.Sorted titleLe (sortByTitle ps) ∧
    saveProjectsEdits ps reason = [⟨saveProjects ps, reason⟩] :=
  ⟨by rw [saveProjects, saveProjectsSpec, foldl_saveStep, List.nil_append],
    List.sorted_insertionSort titleLe ps, rfl⟩

/-! ## Parser correctness: the scanner finds exactly the properly delimited
command tokens -/

theorem findCmd_sound {ws : List String} {l : List Char} {w : String}
    {rem : List Char} (h : findCmd ws l = some (w, rem)) :
    w ∈ ws ∧ l = w.data ++ rem ∧ lookaheadOk rem = true := by
  induction ws with
  | nil => simp [findCmd] at h
  | cons x xs ih =>
    simp only [findCmd] at h
    split at h
    · rename_i hpre
      split at h
      · rename_i hla
        cases h
        obtain ⟨t, ht⟩ := List.isPrefixOf_iff_prefix.mp hpre
        have hd : l.drop w.data.length = t := by
          rw [← ht, List.drop_left]
        refine ⟨List.mem_cons_self w xs, ?_, hla⟩
        rw [hd, ht]
      · obtain ⟨h1, h2, h3⟩ := ih h
        exact ⟨List.mem_cons_of_mem x h1, h2, h3⟩
    · obtain ⟨h1, h2, h3⟩ := ih h
      exact ⟨List.mem_cons_of_mem x h1, h2, h3⟩

theorem findCmd_complete {ws : List String} {w : String} {l : List Char}
    (hmem : w ∈ ws)
    (hnp : ∀ x ∈ ws, x = w ∨ (¬ x.data <+: w.data ∧ ¬ w.data <+: x.data))
    (hpre : w.data <+: l) (hla : lookaheadOk (l.drop w.data.length) = true) :
    findCmd ws l = some (w, l.drop w.data.length) := by
  induction ws with
  | nil => cases hmem
  | cons x xs ih =>
    rcases hnp x (List.mem_cons_self x xs) with hx | ⟨hx1, hx2⟩
    · subst hx
      simp only [findCmd, List.isPrefixOf_iff_prefix.mpr hpre, if_true, hla]
    · have hxf : x.data.isPrefixOf l = false := by
        cases hb : x.data.isPrefixOf l with
        | false => rfl
        | true =>
          exfalso
          have hxp := List.isPrefixOf_iff_prefix.mp hb
          rcases le_or_lt x.data.length w.data.length with hle | hlt
          · exact hx1 (List.prefix_of_prefix_length_le hxp hpre hle)
          · exact hx2 (List.prefix_of_prefix_length_le hpre hxp (Nat.le_of_lt hlt))
      have hwxs : w ∈ xs := by
        rcases List.mem_cons.mp hmem with he | hxs
        · exact absurd (he ▸ List.prefix_refl w.data) hx2
        · exact hxs
      simp only [findCmd, hxf]
      exact ih hwxs (fun y hy => hnp y (List.mem_cons_of_mem x hy))

/-- No two distinct command keywords are prefixes of one another (checked on
the concrete vocabulary). -/
theorem vocab_nonprefix_bool :
    ∀ w ∈ AVAILABLE_COMMANDS, ∀ x ∈ AVAILABLE_COMMANDS,
      x = w ∨ (x.data.isPrefixOf w.data = false ∧
        w.data.isPrefixOf x.data = false) := by decide

theorem vocab_nonprefix_pre :
    ∀ w ∈ AVAILABLE_COMMANDS, ∀ x ∈ AVAILABLE_COMMANDS,
      x = w ∨ (¬ x.data <+: w.data ∧ ¬ w.data <+: x.data) := by
  intro w hw x hx
  rcases vocab_nonprefix_bool w hw x hx with he | ⟨h1, h2⟩
  · exact Or.inl he
  · refine Or.inr ⟨fun hc => ?_, fun hc => ?_⟩
    · rw [← List.isPrefixOf_iff_prefix, h1] at hc
      cases hc
    · rw [← List.isPrefixOf_iff_prefix, h2] at hc
      cases hc

/-- Command keywords contain neither `!` nor whitespace characters. -/
theorem vocab_chars :
    ∀ w ∈ AVAILABLE_COMMANDS, ∀ ch ∈ w.data,
      ch ≠ '!' ∧ isPySpace ch = false := by decide

theorem tryStart_some {b : Bool} {l : List Char} {w : String} {rem : List Char}
    (h : tryStart b l = some (w, rem)) :
    b = true ∧ ∃ rest, l = '!' :: rest ∧
      findCmd AVAILABLE_COMMANDS rest = some (w, rem) := by
  unfold tryStart at h
  split at h
  · rename_i rest
    exact ⟨rfl, rest, rfl, h⟩
  · exact absurd h (by simp)

theorem trySpace_some {l : List Char} {w : String} {rem : List Char}
    (h : trySpace l = some (w, rem)) :
    ∃ c rest, l = c :: '!' :: rest ∧ isPySpace c = true ∧
      findCmd AVAILABLE_COMMANDS rest = some (w, rem) := by
  unfold trySpace at h
  split at h
  · rename_i c rest
    split at h
    · rename_i hsp
      exact ⟨c, rest, rfl, hsp, h⟩
    · exact absurd h (by simp)
  · exact absurd h (by simp)

theorem tryMatchAt_some {b : Bool} {l : List Char} {w : String} {rem : List Char}
    (h : tryMatchAt b l = some (w, rem)) :
    tryStart b l = some (w, rem) ∨
      (tryStart b l = none ∧ trySpace l = some (w, rem)) := by
  unfold tryMatchAt at h
  split at h
  · rename_i r hs
    cases h
    exact Or.inl hs
  · rename_i hs
    exact Or.inr ⟨hs, h⟩

theorem tryMatchAt_none {b : Bool} {l : List Char}
    (h : tryMatchAt b l = none) :
    tryStart b l = none ∧ trySpace l = none := by
  unfold tryMatchAt at h
  split at h
  · rename_i r hs
    cases h
  · rename_i hs
    exact ⟨hs, h⟩

/-- The token `!w` occurs in `l`, properly delimited: preceded by the true
start of the scanned text (tracked by `b`) or a whitespace character, and
followed by end-of-text or whitespace. -/
def SplitOcc (l : List Char) (b : Bool) (w : String) : Prop :=
  ∃ pre post, l = pre ++ '!' :: (w.data ++ post) ∧
    ((pre = [] ∧ b = true) ∨
      ∃ cw, pre.getLast? = some cw ∧ isPySpace cw = true) ∧
    lookaheadOk post = true

theorem SplitOcc_append (x : List Char) {l : List Char} {w : String} {b : Bool}
    (h : SplitOcc l false w) : SplitOcc (x ++ l) b w := by
  obtain ⟨pre, post, heq, hb, hla⟩ := h
  rcases hb with ⟨hpre, hfalse⟩ | ⟨cw, hlast, hsp⟩
  · cases hfalse
  · have hpn : pre ≠ [] := by
      intro hh
      rw [hh] at hlast
      cases hlast
    refine ⟨x ++ pre, post, by rw [heq, List.append_assoc], Or.inr ⟨cw, ?_, hsp⟩, hla⟩
    rw [List.getLast?_append_of_ne_nil x hpn]
    exact hlast

theorem same_position_eq {w w2 : String} {post1 post2 : List Char}
    (hw : w ∈ AVAILABLE_COMMANDS) (hw2 : w2 ∈ AVAILABLE_COMMANDS)
    (heq : w.data ++ post1 = w2.data ++ post2) :
    w = w2 ∧ post1 = post2 := by
  have hp1 : w.data <+: w2.data ++ post2 := ⟨post1, heq⟩
  have hp2 : w2.data <+: w2.data ++ post2 := ⟨post2, rfl⟩
  have heq2 : w = w2 := by
    rcases le_or_lt w.data.length w2.data.length with hle | hlt
    · have hpp := List.prefix_of_prefix_length_le hp1 hp2 hle
      rcases vocab_nonprefix_pre w2 hw2 w hw with he | ⟨h1, _⟩
      · exact he
      · exact absurd hpp h1
    · have hpp := List.prefix_of_prefix_length_le hp2 hp1 (Nat.le_of_lt hlt)
      rcases vocab_nonprefix_pre w hw w2 hw2 with he | ⟨h1, _⟩
      · exact he.symm
      · exact absurd hpp h1
  subst heq2
  exact ⟨rfl, List.append_cancel_left heq⟩

/-- If an occurrence of `!w` starts strictly after the `!` of the word `v`
just matched (its whitespace delimiter lies at or after the end of `v`), it
lies entirely in the remainder `rem`. -/
theorem tail_occ {w : String} {post : List Char} (hla : lookaheadOk post = true) :
    ∀ (v mid rem : List Char),
      (∀ ch ∈ v, ch ≠ '!' ∧ isPySpace ch = false) →
      (∃ cw, mid.getLast? = some cw ∧ isPySpace cw = true) →
      v ++ rem = mid ++ '!' :: (w.data ++ post) →
      SplitOcc rem false w := by
  intro v
  induction v with
  | nil =>
    intro mid rem _ hmid heq
    exact ⟨mid, post, by simpa using heq, Or.inr hmid, hla⟩
  | cons a v2 ih =>
    intro mid rem hv hmid heq
    cases mid with
    | nil =>
      obtain ⟨cw, hlast, _⟩ := hmid
      cases hlast
    | cons m0 mid2 =>
      rw [List.cons_append, List.cons_append] at heq
      have ha : a = m0 := (List.cons.injEq _ _ _ _ ▸ heq).1
      have htail : v2 ++ rem = mid2 ++ '!' :: (w.data ++ post) :=
        (List.cons.injEq _ _ _ _ ▸ heq).2
      cases mid2 with
      | nil =>
        obtain ⟨cw, hlast, hsp⟩ := hmid
        have : cw = m0 := by
          simp [List.getLast?] at hlast
          exact hlast.symm
        have hnot := (hv a (List.mem_cons_self a v2)).2
        rw [ha] at hnot
        rw [this] at hsp
        rw [hsp] at hnot
        cases hnot
      | cons m1 mid3 =>
        obtain ⟨cw, hlast, hsp⟩ := hmid
        have hlast2 : (m1 :: mid3).getLast? = some cw := by
          rwa [List.getLast?_cons_cons] at hlast
        exact ih (m1 :: mid3) rem
          (fun ch hch => hv ch (List.mem_cons_of_mem a hch))
          ⟨cw, hlast2, hsp⟩ htail

/-- Key step for completeness: when the scanner matches `w2` here, any
properly delimited occurrence of `w` in the current text either is this very
match or survives intact into the remainder. -/
theorem occ_step {b : Bool} {l : List Char} {w w2 : String} {rem : List Char}
    (htm : tryMatchAt b l = some (w2, rem)) (hw : w ∈ AVAILABLE_COMMANDS)
    (ho : SplitOcc l b w) : w = w2 ∨ SplitOcc rem false w := by
  obtain ⟨pre, post, heq, hb, hla⟩ := ho
  rcases tryMatchAt_some htm with hs | ⟨_, hs⟩
  · obtain ⟨hbt, rest, hl, hfc⟩ := tryStart_some hs
    obtain ⟨hw2m, hrest, hlarem⟩ := findCmd_sound hfc
    have heqq : '!' :: (w2.data ++ rem) = pre ++ '!' :: (w.data ++ post) := by
      rw [← hrest, ← hl]
      exact heq
    cases pre with
    | nil =>
      simp only [List.nil_append] at heqq
      obtain ⟨-, h2⟩ := List.cons_eq_cons.mp heqq
      obtain ⟨hww, -⟩ := same_position_eq hw2m hw h2
      exact Or.inl hww.symm
    | cons p0 pre1 =>
      rcases hb with ⟨hpre, -⟩ | ⟨cw, hlast, hsp⟩
      · cases hpre
      · rw [List.cons_append] at heqq
        obtain ⟨h1, h2⟩ := List.cons_eq_cons.mp heqq
        cases pre1 with
        | nil =>
          have hcw : cw = p0 := by
            simp [List.getLast?] at hlast
            exact hlast.symm
          rw [hcw, ← h1] at hsp
          cases hsp
        | cons q1 pre2 =>
          have hlast2 : (q1 :: pre2).getLast? = some cw := by
            rwa [List.getLast?_cons_cons] at hlast
          exact Or.inr (tail_occ hla w2.data (q1 :: pre2) rem
            (vocab_chars w2 hw2m) ⟨cw, hlast2, hsp⟩ h2)
  · obtain ⟨cs, rest, hl, hcs, hfc⟩ := trySpace_some hs
    obtain ⟨hw2m, hrest, hlarem⟩ := findCmd_sound hfc
    have heqq : cs :: '!' :: (w2.data ++ rem) = pre ++ '!' :: (w.data ++ post) := by
      rw [← hrest, ← hl]
      exact heq
    cases pre with
    | nil =>
      simp only [List.nil_append] at heqq
      obtain ⟨h1, -⟩ := List.cons_eq_cons.mp heqq
      rw [h1] at hcs
      cases hcs
    | cons p0 pre1 =>
      rw [List.cons_append] at heqq
      obtain ⟨h1, h2⟩ := List.cons_eq_cons.mp heqq
      cases pre1 with
      | nil =>
        simp only [List.nil_append] at h2
        obtain ⟨-, h3⟩ := List.cons_eq_cons.mp h2
        obtain ⟨hww, -⟩ := same_position_eq hw2m hw h3
        exact Or.inl hww.symm
      | cons p1 pre2 =>
        rcases hb with ⟨hpre, -⟩ | ⟨cw, hlast, hsp⟩
        · cases hpre
        · rw [List.cons_append] at h2
          obtain ⟨h3, h4⟩ := List.cons_eq_cons.mp h2
          cases pre2 with
          | nil =>
            have hcw : cw = p1 := by
              rw [List.getLast?_cons_cons] at hlast
              simp [List.getLast?] at hlast
              exact hlast.symm
            rw [hcw, ← h3] at hsp
            cases hsp
          | cons q2 pre3 =>
            have hlast2 : (q2 :: pre3).getLast? = some cw := by
              rw [List.getLast?_cons_cons, List.getLast?_cons_cons] at hlast
              exact hlast
            exact Or.inr (tail_occ hla w2.data (q2 :: pre3) rem
              (vocab_chars w2 hw2m) ⟨cw, hlast2, hsp⟩ h4)

theorem findallAux_sound :
    ∀ (fuel : Nat) (l : List Char) (b : Bool) (w : String),
      w ∈ findallAux fuel l b → w ∈ AVAILABLE_COMMANDS ∧ SplitOcc l b w := by
  intro fuel
  induction fuel with
  | zero =>
    intro l b w h
    simp [findallAux] at h
  | succ fuel ih =>
    intro l b w h
    cases l with
    | nil => simp [findallAux] at h
    | cons c rest =>
      simp only [findallAux] at h
      cases htm : tryMatchAt b (c :: rest) with
      | some pr =>
        obtain ⟨w2, rem⟩ := pr
        rw [htm] at h
        rcases List.mem_cons.mp h with he | hrec
        · subst he
          rcases tryMatchAt_some htm with hs | ⟨-, hs⟩
          · obtain ⟨hbt, rest0, hl, hfc⟩ := tryStart_some hs
            obtain ⟨hwm, hrest0, hla⟩ := findCmd_sound hfc
            refine ⟨hwm, [], rem, ?_, Or.inl ⟨rfl, hbt⟩, hla⟩
            rw [hl, hrest0]
            rfl
          · obtain ⟨cs, rest0, hl, hcs, hfc⟩ := trySpace_some hs
            obtain ⟨hwm, hrest0, hla⟩ := findCmd_sound hfc
            refine ⟨hwm, [cs], rem, ?_, Or.inr ⟨cs, rfl, hcs⟩, hla⟩
            rw [hl, hrest0]
            rfl
        · obtain ⟨hwm, hso⟩ := ih rem false w hrec
          refine ⟨hwm, ?_⟩
          rcases tryMatchAt_some htm with hs | ⟨-, hs⟩
          · obtain ⟨hbt, rest0, hl, hfc⟩ := tryStart_some hs
            obtain ⟨-, hrest0, -⟩ := findCmd_sound hfc
            have hdec : c :: rest = ('!' :: w2.data) ++ rem := by
              rw [hl, hrest0]
              rfl
            rw [hdec]
            exact SplitOcc_append _ hso
          · obtain ⟨cs, rest0, hl, hcs, hfc⟩ := trySpace_some hs
            obtain ⟨-, hrest0, -⟩ := findCmd_sound hfc
            have hdec : c :: rest = (cs :: '!' :: w2.data) ++ rem := by
              rw [hl, hrest0]
              rfl
            rw [hdec]
            exact SplitOcc_append _ hso
      | none =>
        rw [htm] at h
        obtain ⟨hwm, hso⟩ := ih rest false w h
        refine ⟨hwm, ?_⟩
        have hdec : c :: rest = [c] ++ rest := rfl
        rw [hdec]
        exact SplitOcc_append _ hso

theorem findallAux_complete :
    ∀ (fuel : Nat) (l : List Char) (b : Bool) (w : String),
      l.length < fuel → w ∈ AVAILABLE_COMMANDS → SplitOcc l b w →
      w ∈ findallAux fuel l b := by
  intro fuel
  induction fuel with
  | zero =>
    intro l b w hlen
    exact absurd hlen (Nat.not_lt_zero _)
  | succ fuel ih =>
    intro l b w hlen hw ho
    cases l with
    | nil =>
      obtain ⟨pre, post, heq, -, -⟩ := ho
      exact absurd heq (by simp)
    | cons c rest =>
      cases htm : tryMatchAt b (c :: rest) with
      | some pr =>
        obtain ⟨w2, rem⟩ := pr
        rcases occ_step htm hw ho with he | hso
        · subst he
          simp [findallAux, htm]
        · have hremlen : rem.length < fuel := by
            have h1 := tryMatchAt_length htm
            simp only [List.length_cons] at h1 hlen
            omega
          have hmem := ih rem false w hremlen hw hso
          simp only [findallAux, htm]
          exact List.mem_cons_of_mem _ hmem
      | none =>
        obtain ⟨pre, post, heq, hb, hla⟩ := ho
        obtain ⟨hts, htsp⟩ := tryMatchAt_none htm
        have hrl : rest.length < fuel := by
          simp only [List.length_cons] at hlen
          omega
        cases pre with
        | nil =>
          rcases hb with ⟨-, hbt⟩ | ⟨cw, hlast, -⟩
          · exfalso
            subst hbt
            simp only [List.nil_append] at heq
            obtain ⟨hc, hrest⟩ := List.cons_eq_cons.mp heq
            have hfc : findCmd AVAILABLE_COMMANDS (w.data ++ post) =
                some (w, (w.data ++ post).drop w.data.length) :=
              findCmd_complete hw (vocab_nonprefix_pre w hw) ⟨post, rfl⟩
                (by rw [List.drop_left]; exact hla)
            rw [hc, hrest] at hts
            have hts2 : findCmd AVAILABLE_COMMANDS (w.data ++ post) = none := hts
            rw [hfc] at hts2
            cases hts2
          · cases hlast
        | cons p0 pre1 =>
          cases pre1 with
          | nil =>
            rcases hb with ⟨hpre, -⟩ | ⟨cw, hlast, hsp⟩
            · exact absurd hpre (by simp)
            · exfalso
              have hcw : cw = p0 := by
                simp [List.getLast?] at hlast
                exact hlast.symm
              have heq2 : c :: rest = p0 :: ('!' :: (w.data ++ post)) := by
                rw [heq]
                rfl
              obtain ⟨hc, hrest⟩ := List.cons_eq_cons.mp heq2
              have hfc : findCmd AVAILABLE_COMMANDS (w.data ++ post) =
                  some (w, (w.data ++ post).drop w.data.length) :=
                findCmd_complete hw (vocab_nonprefix_pre w hw) ⟨post, rfl⟩
                  (by rw [List.drop_left]; exact hla)
              rw [hc, hrest] at htsp
              have hsp0 : isPySpace p0 = true := hcw ▸ hsp
              have htsp2 : (if isPySpace p0 = true then
                  findCmd AVAILABLE_COMMANDS (w.data ++ post)
                else none) = none := htsp
              rw [if_pos hsp0, hfc] at htsp2
              cases htsp2
          | cons p1 pre2 =>
            rcases hb with ⟨hpre, -⟩ | ⟨cw, hlast, hsp⟩
            · exact absurd hpre (by simp)
            · have heq2 : c :: rest = p0 :: ((p1 :: pre2) ++ '!' :: (w.data ++ post)) := by
                rw [heq]
                rfl
              obtain ⟨hc, hrest⟩ := List.cons_eq_cons.mp heq2
              have hlast2 : (p1 :: pre2).getLast? = some cw := by
                rwa [List.getLast?_cons_cons] at hlast
              have hso2 : SplitOcc rest false w :=
                ⟨p1 :: pre2, post, hrest, Or.inr ⟨cw, hlast2, hsp⟩, hla⟩
              have hmem := ih rest false w hrl hw hso2
              simp only [findallAux, htm]
              exact hmem

theorem hasToken_iff (chars : List Char) (w : String) :
    hasToken chars w = true ↔ SplitOcc chars true w := by
  unfold hasToken
  rw [List.any_eq_true]
  constructor
  · rintro ⟨i, hi, hti⟩
    rw [List.mem_range] at hi
    unfold tokenAt at hti
    rw [Bool.and_eq_true, Bool.and_eq_true] at hti
    obtain ⟨⟨hbound, hpre⟩, hla⟩ := hti
    obtain ⟨t, ht⟩ := List.isPrefixOf_iff_prefix.mp hpre
    have ht2 : t = chars.drop (i + 1 + w.data.length) := by
      have h3 : (('!' :: w.data) ++ t).drop ('!' :: w.data).length = t :=
        List.drop_left _ _
      rw [ht, List.drop_drop] at h3
      have h4 : i + ('!' :: w.data).length = i + 1 + w.data.length := by
        simp only [List.length_cons]
        omega
      rw [h4] at h3
      exact h3.symm
    have hdrop : chars.drop i = '!' :: (w.data ++ chars.drop (i + 1 + w.data.length)) := by
      rw [← ht2, ← ht]
      rfl
    refine ⟨chars.take i, chars.drop (i + 1 + w.data.length), ?_, ?_, hla⟩
    · calc chars = chars.take i ++ chars.drop i := (List.take_append_drop i chars).symm
        _ = chars.take i ++ '!' :: (w.data ++ chars.drop (i + 1 + w.data.length)) := by
          rw [hdrop]
    · rcases Bool.or_eq_true_iff.mp hbound with h0 | hm
      · have : i = 0 := of_decide_eq_true h0
        subst this
        exact Or.inl ⟨rfl, rfl⟩
      · cases hgl : (chars.take i).getLast? with
        | none =>
          rw [hgl] at hm
          cases hm
        | some cw =>
          rw [hgl] at hm
          exact Or.inr ⟨cw, rfl, hm⟩
  · rintro ⟨pre, post, heq, hb, hla⟩
    refine ⟨pre.length, ?_, ?_⟩
    · rw [List.mem_range, heq]
      simp only [List.length_append, List.length_cons]
      omega
    · have htake : chars.take pre.length = pre := by
        rw [heq]
        exact List.take_left _ _
      have hdrop : chars.drop pre.length = '!' :: (w.data ++ post) := by
        rw [heq]
        exact List.drop_left _ _
      have hdrop2 : chars.drop (pre.length + 1 + w.data.length) = post := by
        have h1 : pre.length + 1 + w.data.length =
            pre.length + ('!' :: w.data).length := by
          simp only [List.length_cons]
          omega
        rw [h1, ← List.drop_drop, hdrop]
        have h2 : '!' :: (w.data ++ post) = ('!' :: w.data) ++ post := rfl
        rw [h2]
        exact List.drop_left _ _
      unfold tokenAt
      rw [Bool.and_eq_true, Bool.and_eq_true]
      refine ⟨⟨?_, ?_⟩, ?_⟩
      · rcases hb with ⟨hpre, -⟩ | ⟨cw, hlast, hsp⟩
        · subst hpre
          simp
        · rw [Bool.or_eq_true_iff]
          right
          rw [htake, hlast]
          exact hsp
      · rw [List.isPrefixOf_iff_prefix, hdrop]
        exact ⟨post, rfl⟩
      · rw [hdrop2]
        exact hla

theorem mem_parseCommands_iff (s : String) (w : String) :
    w ∈ parseCommands s ↔ w ∈ AVAILABLE_COMMANDS ∧ hasToken s.data w = true := by
  unfold parseCommands findall
  rw [List.mem_dedup]
  constructor
  · intro h
    obtain ⟨hm, hso⟩ := findallAux_sound _ _ _ _ h
    exact ⟨hm, (hasToken_iff _ _).mpr hso⟩
  · rintro ⟨hm, ht⟩
    exact findallAux_complete _ _ _ _ (Nat.lt_succ_self _) hm
      ((hasToken_iff _ _).mp ht)

theorem mem_distinctTokens_iff (s : String) (w : String) :
    w ∈ distinctTokens s ↔ w ∈ AVAILABLE_COMMANDS ∧ hasToken s.data w = true := by
  unfold distinctTokens
  rw [List.mem_filter]

theorem parseCommands_length (s : String) :
    (parseCommands s).length = (distinctTokens s).length := by
  have hnp : (parseCommands s).Nodup := List.nodup_dedup _
  have hnd : (distinctTokens s).Nodup :=
    List.Nodup.filter _ (by decide : AVAILABLE_COMMANDS.Nodup)
  have hfs : (parseCommands s).toFinset = (distinctTokens s).toFinset := by
    apply Finset.ext
    intro a
    rw [List.mem_toFinset, List.mem_toFinset, mem_parseCommands_iff,
      mem_distinctTokens_iff]
  rw [← List.toFinset_card_of_nodup hnp, ← List.toFinset_card_of_nodup hnd, hfs]

/-- C6: the parser returns exactly the set of distinct recognized command
tokens that occur properly delimited (whitespace or string boundary on both
sides of the `!token`): one such token yields that singleton, none yields the
empty set, two distinct tokens yield a set of size two, and a command
embedded in a longer word, as in `!joining`, never matches. -/
theorem claim_C6 (s : String) :
    (∀ w, w ∈ parseCommands s ↔ w ∈ distinctTokens s) ∧
    ((distinctTokens s).length = 1 → parseCommands s = distinctTokens s) ∧
    (distinctTokens s = [] → parseCommands s = []) ∧
    ((distinctTokens s).length = 2 → (parseCommands s).length = 2) ∧
    "join" ∉ parseCommands "!joining" := by
  have hmem : ∀ w, w ∈ parseCommands s ↔ w ∈ distinctTokens s := by
    intro w
    rw [mem_parseCommands_iff, mem_distinctTokens_iff]
  refine ⟨hmem, ?_, ?_, ?_, by decide⟩
  · intro hlen1
    have hlp := parseCommands_length s
    rw [hlen1] at hlp
    cases hd : distinctTokens s with
    | nil => rw [hd] at hlen1; cases hlen1
    | cons x xs =>
      cases xs with
      | cons y ys => rw [hd] at hlen1; simp at hlen1
      | nil =>
        cases hp : parseCommands s with
        | nil => rw [hp] at hlp; cases hlp
        | cons a as =>
          cases as with
          | cons b bs => rw [hp] at hlp; simp at hlp
          | nil =>
            have ha : a ∈ parseCommands s := by
              rw [hp]
              exact List.mem_cons_self a []
            rw [hmem a, hd] at ha
            rcases List.mem_cons.mp ha with he | hh
            · rw [he]
            · cases hh
  · intro hnil
    apply List.eq_nil_iff_forall_not_mem.mpr
    intro w hw
    rw [hmem w, hnil] at hw
    cases hw
  · intro hlen2
    rw [parseCommands_length s, hlen2]

theorem claim_C6_witness :
    ((distinctTokens "a !join b").length = 1 ∧
      distinctTokens "xyz" = [] ∧
      (distinctTokens "!join !leave").length = 2) ∧
    parseCommands "a !join b" = distinctTokens "a !join b" ∧
    parseCommands "xyz" = [] ∧
    (parseCommands "!join !leave").length = 2 :=
  ⟨⟨by decide, by decide, by decide⟩,
    (claim_C6 "a !join b").2.1 (by decide),
    (claim_C6 "xyz").2.2.1 (by decide),
    (claim_C6 "!join !leave").2.2.2.1 (by decide)⟩

/-! ## Round trip: parsing a saved document recovers the ledger -/

theorem pyStrip_noop {l : List Char} {c0 cl : Char}
    (hh : l.head? = some c0) (h0 : isPySpace c0 = false)
    (hl : l.getLast? = some cl) (hcl : isPySpace cl = false) :
    pyStrip l = l := by
  unfold pyStrip
  have h1 : l.dropWhile isPySpace = l := by
    cases l with
    | nil => rfl
    | cons a as =>
      have ha : a = c0 := by injection hh
      rw [List.dropWhile_cons, ha, h0]
      simp
  rw [h1]
  have h2 : l.reverse.dropWhile isPySpace = l.reverse := by
    cases hrev : l.reverse with
    | nil => rfl
    | cons b bs =>
      have hhb : l.reverse.head? = some b := by
        rw [hrev]
        rfl
      rw [List.head?_reverse, hl] at hhb
      have hb : cl = b := by injection hhb
      have hbf : isPySpace b = false := hb ▸ hcl
      rw [List.dropWhile_cons, hbf]
      simp
  rw [h2, List.reverse_reverse]

/-- The two-character separator `](` does not occur in the list. -/
def noSep : List Char → Bool
  | [] => true
  | [_] => true
  | c :: c2 :: rest =>
    if c = ']' ∧ c2 = '(' then false else noSep (c2 :: rest)

theorem splitBracket_ne_nil (l : List Char) : splitBracket l ≠ [] := by
  induction l with
  | nil => simp [splitBracket]
  | cons c rest ih =>
    cases rest with
    | nil => simp [splitBracket]
    | cons c2 rest2 =>
      by_cases h : c = ']' ∧ c2 = '('
      · obtain ⟨h1, h2⟩ := h
        subst h1
        subst h2
        simp [splitBracket]
      · simp only [splitBracket, if_neg h]
        cases hc : splitBracket (c2 :: rest2) with
        | nil => exact absurd hc ih
        | cons x xs => simp

theorem splitBracket_of_noSep {l : List Char} (h : noSep l = true) :
    splitBracket l = [l] := by
  induction l with
  | nil => rfl
  | cons c rest ih =>
    cases rest with
    | nil => rfl
    | cons c2 rest2 =>
      by_cases hsep : c = ']' ∧ c2 = '('
      · obtain ⟨h1, h2⟩ := hsep
        subst h1
        subst h2
        simp [noSep] at h
      · have hns : noSep (c2 :: rest2) = true := by
          simp only [noSep, if_neg hsep] at h
          exact h
        simp only [splitBracket, if_neg hsep, ih hns]

theorem splitBracket_cons_cons (c c2 : Char) (rest : List Char) :
    splitBracket (c :: c2 :: rest) =
      if c = ']' ∧ c2 = '(' then [] :: splitBracket rest
      else
        match splitBracket (c2 :: rest) with
        | [] => [[c]]
        | l :: ls => (c :: l) :: ls := rfl

theorem splitBracket_sep_head (b : List Char) :
    splitBracket (']' :: '(' :: b) = [] :: splitBracket b := by
  have hsepTrue : (']' : Char) = ']' ∧ ('(' : Char) = '(' := ⟨rfl, rfl⟩
  rw [splitBracket_cons_cons, if_pos hsepTrue]

theorem splitBracket_append_sep {b : List Char} (hb2 : noSep b = true) :
    ∀ {a : List Char}, noSep a = true →
      splitBracket (a ++ ']' :: '(' :: b) = [a, b] := by
  intro a
  induction a with
  | nil =>
    intro _
    rw [List.nil_append, splitBracket_sep_head, splitBracket_of_noSep hb2]
  | cons c a2 ih =>
    intro ha
    cases a2 with
    | nil =>
      have hnot : ¬ (c = ']' ∧ (']' : Char) = '(') := by
        intro hc
        exact absurd hc.2 (by decide)
      show splitBracket (c :: ']' :: '(' :: b) = [[c], b]
      rw [splitBracket_cons_cons, if_neg hnot, splitBracket_sep_head,
        splitBracket_of_noSep hb2]
    | cons c2 a3 =>
      have hnot : ¬ (c = ']' ∧ c2 = '(') := by
        intro hc
        obtain ⟨h1, h2⟩ := hc
        subst h1
        subst h2
        simp [noSep] at ha
      have hns : noSep (c2 :: a3) = true := by
        simp only [noSep, if_neg hnot] at ha
        exact ha
      have ih2 : splitBracket (c2 :: (a3 ++ ']' :: '(' :: b)) = [c2 :: a3, b] := by
        rw [← List.cons_append]
        exact ih hns
      show splitBracket (c :: ((c2 :: a3) ++ ']' :: '(' :: b)) = [c :: c2 :: a3, b]
      rw [List.cons_append, splitBracket_cons_cons, if_neg hnot, ih2]

/-- Well-formed member name for the round trip: no newline (it would break
the line), no slash (`rsplit('/', 1)` keeps only the part after the last
slash), and no trailing whitespace (the line is stripped before parsing). -/
def WFname (m : String) : Prop :=
  '\n' ∉ m.data ∧ '/' ∉ m.data ∧
  (m.data.getLast?.map isPySpace).getD false = false

/-- Well-formed ledger entry for the round trip: title and url free of
newlines and of the `](` separator, duplicate-free rosters of well-formed
names, and at least one member (topics with both rosters empty are pruned by
`_save_projects`). -/
def WFentry (u : String) (p : Project) : Prop :=
  '\n' ∉ p.title.data ∧ '\n' ∉ u.data ∧
  noSep p.title.data = true ∧ noSep u.data = true ∧
  p.assignees.Nodup ∧ p.interested.Nodup ∧
  (∀ m ∈ p.assignees, WFname m) ∧ (∀ m ∈ p.interested, WFname m) ∧
  (p.assignees ≠ [] ∨ p.interested ≠ [])

/-- Well-formed ledger state: distinct urls and well-formed entries. -/
def WFstate (ps : Projects) : Prop :=
  (ps.map Prod.fst).Nodup ∧ ∀ e ∈ ps, WFentry e.1 e.2

instance (m : String) : Decidable (WFname m) := by
  unfold WFname; infer_instance

instance (u : String) (p : Project) : Decidable (WFentry u p) := by
  unfold WFentry; infer_instance

instance (ps : Projects) : Decidable (WFstate ps) := by
  unfold WFstate; infer_instance

/-- The state `_load_projects` actually reconstructs: topics in title-sorted
order, each roster sorted. -/
def canonProject (p : Project) : Project :=
  ⟨p.title, pySorted p.assignees, pySorted p.interested⟩

def canonState (ps : Projects) : Projects :=
  (sortByTitle ps).map (fun e => (e.1, canonProject e.2))

theorem dictSet_of_get_none {α : Type} {url : String} {p : α}
    {ps : List (String × α)} (h : dictGet url ps = none) :
    dictSet url p ps = ps ++ [(url, p)] := by
  induction ps with
  | nil => rfl
  | cons hd rest ih =>
    obtain ⟨u, q⟩ := hd
    simp only [dictGet] at h
    by_cases hu : u = url
    · simp [hu] at h
    · simp only [if_neg hu] at h
      simp [dictSet, hu, ih h]

theorem dictSet_get_self {α : Type} {url : String} {p : α}
    {ps : List (String × α)} (h : dictGet url ps = some p) :
    dictSet url p ps = ps := by
  induction ps with
  | nil => simp [dictGet] at h
  | cons hd rest ih =>
    obtain ⟨u, q⟩ := hd
    simp only [dictGet] at h
    by_cases hu : u = url
    · simp only [if_pos hu] at h
      injection h with h2
      simp [dictSet, hu, h2]
    · simp only [if_neg hu] at h
      simp [dictSet, hu, ih h]

theorem dictSet_dictSet {α : Type} (url : String) (p1 p2 : α)
    (ps : List (String × α)) :
    dictSet url p2 (dictSet url p1 ps) = dictSet url p2 ps := by
  induction ps with
  | nil => simp [dictSet]
  | cons hd rest ih =>
    obtain ⟨u, q⟩ := hd
    by_cases hu : u = url
    · simp [dictSet, hu]
    · simp [dictSet, hu, ih]

theorem dictSet_append_last {α : Type} {url : String} {done : List (String × α)}
    (p q : α) (h : dictGet url done = none) :
    dictSet url q (done ++ [(url, p)]) = done ++ [(url, q)] := by
  induction done with
  | nil => simp [dictSet]
  | cons hd rest ih =>
    obtain ⟨u, r⟩ := hd
    simp only [dictGet] at h
    by_cases hu : u = url
    · simp [hu] at h
    · simp only [if_neg hu] at h
      simp [dictSet, hu, ih h]

theorem dictGet_mem {α : Type} {url : String} {p : α}
    {ps : List (String × α)} (h : dictGet url ps = some p) : (url, p) ∈ ps := by
  induction ps with
  | nil => simp [dictGet] at h
  | cons hd rest ih =>
    obtain ⟨u, q⟩ := hd
    simp only [dictGet] at h
    by_cases hu : u = url
    · simp only [if_pos hu] at h
      injection h with h2
      rw [← hu, ← h2]
      exact List.mem_cons_self _ _
    · simp only [if_neg hu] at h
      exact List.mem_cons_of_mem _ (ih h)

theorem dictGet_of_mem_nodup {α : Type} {url : String} {p : α}
    {ps : List (String × α)} (hnd : (ps.map Prod.fst).Nodup)
    (hmem : (url, p) ∈ ps) : dictGet url ps = some p := by
  induction ps with
  | nil => cases hmem
  | cons hd rest ih =>
    obtain ⟨u, q⟩ := hd
    simp only [List.map_cons, List.nodup_cons] at hnd
    rcases List.mem_cons.mp hmem with he | hm
    · injection he with h1 h2
      subst h1
      subst h2
      simp [dictGet]
    · have hne : u ≠ url := by
        intro hc
        subst hc
        exact hnd.1 (List.mem_map.mpr ⟨(u, p), hm, rfl⟩)
      simp only [dictGet, if_neg hne]
      exact ih hnd.2 hm

theorem foldl_setAdd_of_nodup :
    ∀ (ms acc : List String), ms.Nodup → (∀ m ∈ ms, m ∉ acc) →
      ms.foldl (fun a m => setAdd m a) acc = acc ++ ms := by
  intro ms
  induction ms with
  | nil => simp
  | cons m ms2 ih =>
    intro acc hnd hdis
    rw [List.foldl_cons, setAdd_of_not_mem (hdis m (List.mem_cons_self m ms2))]
    rw [List.nodup_cons] at hnd
    rw [ih (acc ++ [m]) hnd.2]
    · simp
    · intro m2 hm2
      rw [List.mem_append]
      rintro (hc | hc)
      · exact hdis m2 (List.mem_cons_of_mem m hm2) hc
      · simp only [List.mem_singleton] at hc
        subst hc
        exact hnd.1 hm2

theorem takeWhile_append_stop {p : Char → Bool} :
    ∀ {xs : List Char} {y : Char} {ys : List Char},
      (∀ x ∈ xs, p x = true) → p y = false →
      List.takeWhile p (xs ++ y :: ys) = xs := by
  intro xs
  induction xs with
  | nil =>
    intro y ys _ hy
    simp [List.takeWhile_cons, hy]
  | cons x xs2 ih =>
    intro y ys hx hy
    rw [List.cons_append, List.takeWhile_cons,
      hx x (List.mem_cons_self x xs2)]
    simp only [if_true]
    rw [ih (fun z hz => hx z (List.mem_cons_of_mem x hz)) hy]

theorem headingLine_shape (u title : String) :
    headingLine u title =
      ('#' :: ' ' :: '[' :: ((title.data ++ ']' :: '(' :: u.data) ++ [')'])) := by
  unfold headingLine
  have h1 : "# [".data = ['#', ' ', '['] := rfl
  have h2 : "](".data = [']', '('] := rfl
  have h3 : ")".data = [')'] := rfl
  rw [h1, h2, h3]
  simp [List.append_assoc]

theorem headingLine_head (u title : String) :
    (headingLine u title).head? = some '#' := by
  rw [headingLine_shape]
  rfl

theorem headingLine_last (u title : String) :
    (headingLine u title).getLast? = some ')' := by
  rw [headingLine_shape, List.getLast?_cons_cons, List.getLast?_cons_cons,
    show ('[' :: ((title.data ++ ']' :: '(' :: u.data) ++ [')'])) =
      ['['] ++ ((title.data ++ ']' :: '(' :: u.data) ++ [')']) from rfl,
    List.getLast?_append_of_ne_nil _ (by simp),
    List.getLast?_append_of_ne_nil _ (by simp)]
  rfl

theorem headingLine_noNl {u title : String} (h1 : '\n' ∉ title.data)
    (h2 : '\n' ∉ u.data) : '\n' ∉ headingLine u title := by
  intro hmem
  rw [headingLine_shape] at hmem
  rcases List.mem_cons.mp hmem with h | hA
  · exact absurd h (by decide)
  rcases List.mem_cons.mp hA with h | hA2
  · exact absurd h (by decide)
  rcases List.mem_cons.mp hA2 with h | hA3
  · exact absurd h (by decide)
  rcases List.mem_append.mp hA3 with hA4 | hB
  · rcases List.mem_append.mp hA4 with h | hA5
    · exact h1 h
    rcases List.mem_cons.mp hA5 with h | hA6
    · exact absurd h (by decide)
    rcases List.mem_cons.mp hA6 with h | hA7
    · exact absurd h (by decide)
    · exact h2 hA7
  · exact absurd hB (by decide)

theorem headingLine_hash (u title : String) :
    "#".data.isPrefixOf (headingLine u title) = true := by
  rw [headingLine_shape]
  rfl

theorem loadLine_heading (st : Projects × Option String) (u title : String)
    (ht : noSep title.data = true) (hu : noSep u.data = true) :
    loadLine st (headingLine u title) =
      .ok (dictSet u ⟨title, [], []⟩ st.1, some u) := by
  have hstrip : pyStrip (headingLine u title) = headingLine u title :=
    pyStrip_noop (headingLine_head u title) (by decide)
      (headingLine_last u title) (by decide)
  have hdrop : ((headingLine u title).drop 3).dropLast =
      title.data ++ ']' :: '(' :: u.data := by
    rw [headingLine_shape]
    show ((title.data ++ ']' :: '(' :: u.data) ++ [')']).dropLast =
      title.data ++ ']' :: '(' :: u.data
    exact List.dropLast_concat
  simp only [loadLine, hstrip, headingLine_hash u title, if_true, hdrop,
    splitBracket_append_sep hu ht]

theorem assigneeLine_shape (m : String) :
    assigneeLine m = '*' :: ' ' :: '/' :: 'u' :: '/' :: m.data := rfl

theorem interestedLine_shape (m : String) :
    interestedLine m = '*' :: ' ' :: '[' :: 'I' :: 'N' :: 'T' :: 'E' :: 'R' ::
      'E' :: 'S' :: 'T' :: 'E' :: 'D' :: ']' :: ' ' :: '/' :: 'u' :: '/' :: m.data := rfl

theorem WFname_last_not_space {m : String} (hm : WFname m) {c : Char}
    {cs : List Char} (hd : m.data = c :: cs) :
    ∃ cl, m.data.getLast? = some cl ∧ isPySpace cl = false := by
  obtain ⟨-, -, hlast⟩ := hm
  have hne : m.data ≠ [] := by
    rw [hd]
    simp
  obtain ⟨cl, hcl⟩ := Option.isSome_iff_exists.mp (by
    rw [List.getLast?_isSome]
    exact hne)
  refine ⟨cl, hcl, ?_⟩
  rw [hcl] at hlast
  simpa using hlast

theorem member_line_strip {m : String} (hm : WFname m)
    (front : List Char) (c0 : Char) {line : List Char}
    (hline : line = front ++ m.data) (hfront : front.head? = some c0)
    (h0 : isPySpace c0 = false) (cf : Char)
    (hfl : front.getLast? = some cf) (hcf : isPySpace cf = false) :
    pyStrip line = line := by
  cases hd : m.data with
  | nil =>
    subst hline
    rw [hd, List.append_nil]
    exact pyStrip_noop hfront h0 hfl hcf
  | cons c cs =>
    obtain ⟨cl, hcl, hclns⟩ := WFname_last_not_space hm hd
    subst hline
    have hh : (front ++ m.data).head? = some c0 := by
      cases front with
      | nil => cases hfront
      | cons f fs =>
        rw [List.cons_append]
        exact hfront
    have hl : (front ++ m.data).getLast? = some cl := by
      rw [List.getLast?_append_of_ne_nil _ (by rw [hd]; simp)]
      exact hcl
    exact pyStrip_noop hh h0 hl hclns

theorem afterLastSlash_line (m : String) (hm : '/' ∉ m.data)
    (front : List Char) (revTail : List Char)
    (hrf : front.reverse = '/' :: revTail) {line : List Char}
    (hline : line = front ++ m.data) (hmemSlash : '/' ∈ front) :
    afterLastSlash line = .ok m := by
  unfold afterLastSlash
  rw [if_pos]
  · subst hline
    rw [List.reverse_append, hrf]
    rw [takeWhile_append_stop ?_ (by decide)]
    · rw [List.reverse_reverse]
    · intro x hx
      rw [List.mem_reverse] at hx
      have hne : x ≠ '/' := fun hc => hm (hc ▸ hx)
      simp [hne]
  · subst hline
    exact List.mem_append.mpr (Or.inl hmemSlash)

theorem loadLine_assignee {st : Projects × Option String} {m u : String}
    {p : Project} (hm : WFname m) (hcur : st.2 = some u)
    (hget : dictGet u st.1 = some p) :
    loadLine st (assigneeLine m) =
      .ok (dictSet u { p with assignees := setAdd m p.assignees } st.1, st.2) := by
  have hstrip : pyStrip (assigneeLine m) = assigneeLine m :=
    member_line_strip hm "* /u/".data '*' (assigneeLine_shape m ▸ rfl) rfl
      (by decide) '/' rfl (by decide)
  have hsl : afterLastSlash (assigneeLine m) = .ok m :=
    afterLastSlash_line m hm.2.1 "* /u/".data ['u', '/', ' ', '*'] rfl
      rfl (by decide)
  have hnh : "#".data.isPrefixOf (assigneeLine m) = false := rfl
  have hni : "* [INTERESTED]".data.isPrefixOf (assigneeLine m) = false := rfl
  have hst : "*".data.isPrefixOf (assigneeLine m) = true := rfl
  simp only [loadLine, hstrip, hnh, hni, hst, Bool.false_eq_true, if_false,
    if_true, hsl, hcur, hget]

theorem loadLine_interested {st : Projects × Option String} {m u : String}
    {p : Project} (hm : WFname m) (hcur : st.2 = some u)
    (hget : dictGet u st.1 = some p) :
    loadLine st (interestedLine m) =
      .ok (dictSet u { p with interested := setAdd m p.interested } st.1, st.2) := by
  have hstrip : pyStrip (interestedLine m) = interestedLine m :=
    member_line_strip hm "* [INTERESTED] /u/".data '*'
      (interestedLine_shape m ▸ rfl) rfl (by decide) '/' rfl (by decide)
  have hsl : afterLastSlash (interestedLine m) = .ok m :=
    afterLastSlash_line m hm.2.1 "* [INTERESTED] /u/".data
      ['u', '/', ' ', ']', 'D', 'E', 'T', 'S', 'E', 'R', 'E', 'T', 'N', 'I', '[', ' ', '*']
      rfl rfl (by decide)
  have hnh : "#".data.isPrefixOf (interestedLine m) = false := rfl
  have hmk : "* [INTERESTED]".data.isPrefixOf (interestedLine m) = true := rfl
  simp only [loadLine, hstrip, hnh, hmk, Bool.false_eq_true, if_false,
    if_true, hsl, hcur, hget]

theorem foldlM_loadLine_cons (st : Projects × Option String) (l : List Char)
    (ls : List (List Char)) (st2 : Projects × Option String)
    (h : loadLine st l = .ok st2) :
    List.foldlM loadLine st (l :: ls) = List.foldlM loadLine st2 ls := by
  rw [List.foldlM_cons, h]
  rfl

theorem load_assignee_lines :
    ∀ (ms : List String) (done : Projects) (u : String) (p : Project)
      (rest : List (List Char)),
      (∀ m ∈ ms, WFname m) → dictGet u done = some p →
      List.foldlM loadLine (done, some u) (ms.map assigneeLine ++ rest) =
        List.foldlM loadLine
          (dictSet u ⟨p.title, ms.foldl (fun a m => setAdd m a) p.assignees,
            p.interested⟩ done, some u) rest := by
  intro ms
  induction ms with
  | nil =>
    intro done u p rest _ hget
    simp only [List.map_nil, List.nil_append, List.foldl_nil]
    rw [show { p with assignees := p.assignees } = p from rfl, dictSet_get_self hget]
  | cons m ms2 ih =>
    intro done u p rest hWF hget
    rw [List.map_cons, List.cons_append]
    rw [foldlM_loadLine_cons _ _ _ _
      (loadLine_assignee (hWF m (List.mem_cons_self m ms2)) rfl hget)]
    rw [ih (dictSet u { p with assignees := setAdd m p.assignees } done) u
      { p with assignees := setAdd m p.assignees } rest
      (fun m2 h2 => hWF m2 (List.mem_cons_of_mem m h2))
      (dictGet_dictSet_self u _ done)]
    rw [dictSet_dictSet]
    rfl

theorem load_interested_lines :
    ∀ (ms : List String) (done : Projects) (u : String) (p : Project)
      (rest : List (List Char)),
      (∀ m ∈ ms, WFname m) → dictGet u done = some p →
      List.foldlM loadLine (done, some u) (ms.map interestedLine ++ rest) =
        List.foldlM loadLine
          (dictSet u ⟨p.title, p.assignees,
            ms.foldl (fun a m => setAdd m a) p.interested⟩ done, some u) rest := by
  intro ms
  induction ms with
  | nil =>
    intro done u p rest _ hget
    simp only [List.map_nil, List.nil_append, List.foldl_nil]
    rw [show { p with interested := p.interested } = p from rfl, dictSet_get_self hget]
  | cons m ms2 ih =>
    intro done u p rest hWF hget
    rw [List.map_cons, List.cons_append]
    rw [foldlM_loadLine_cons _ _ _ _
      (loadLine_interested (hWF m (List.mem_cons_self m ms2)) rfl hget)]
    rw [ih (dictSet u { p with interested := setAdd m p.interested } done) u
      { p with interested := setAdd m p.interested } rest
      (fun m2 h2 => hWF m2 (List.mem_cons_of_mem m h2))
      (dictGet_dictSet_self u _ done)]
    rw [dictSet_dictSet]
    rfl

theorem load_block (u : String) (p : Project) (done : Projects)
    (cur : Option String) (rest : List (List Char)) (hWF : WFentry u p)
    (hget : dictGet u done = none) :
    List.foldlM loadLine (done, cur) (projectLines u p ++ rest) =
      List.foldlM loadLine (done ++ [(u, canonProject p)], some u) rest := by
  obtain ⟨hTnl, hUnl, hTns, hUns, hAnd, hInd, hAWF, hIWF, hne⟩ := hWF
  have hAperm := List.perm_insertionSort pyLe p.assignees
  have hIperm := List.perm_insertionSort pyLe p.interested
  have hAs : (pySorted p.assignees).Nodup := (hAperm.nodup_iff).mpr hAnd
  have hIs : (pySorted p.interested).Nodup := (hIperm.nodup_iff).mpr hInd
  have hAW : ∀ m ∈ pySorted p.assignees, WFname m :=
    fun m hmem => hAWF m (hAperm.mem_iff.mp hmem)
  have hIW : ∀ m ∈ pySorted p.interested, WFname m :=
    fun m hmem => hIWF m (hIperm.mem_iff.mp hmem)
  unfold projectLines
  rw [List.cons_append]
  rw [foldlM_loadLine_cons _ _ _ _ (loadLine_heading (done, cur) u p.title hTns hUns)]
  rw [dictSet_of_get_none hget, List.append_assoc]
  rw [load_assignee_lines (pySorted p.assignees) (done ++ [(u, ⟨p.title, [], []⟩)])
    u ⟨p.title, [], []⟩ _ hAW (dictGet_append_self u _ done hget)]
  rw [foldl_setAdd_of_nodup _ [] hAs (by simp)]
  rw [dictSet_append_last _ _ hget]
  rw [load_interested_lines (pySorted p.interested)
    (done ++ [(u, ⟨p.title, [] ++ pySorted p.assignees, []⟩)]) u
    ⟨p.title, [] ++ pySorted p.assignees, []⟩ rest hIW
    (dictGet_append_self u _ done hget)]
  rw [foldl_setAdd_of_nodup _ [] hIs (by simp)]
  rw [dictSet_append_last _ _ hget]
  simp [canonProject]

theorem load_blocks :
    ∀ (entries : Projects) (done : Projects) (cur : Option String),
      (∀ e ∈ entries, WFentry e.1 e.2) →
      (∀ e ∈ entries, dictGet e.1 done = none) →
      (entries.map Prod.fst).Nodup →
      ∃ cur2,
        List.foldlM loadLine (done, cur)
            (entries.flatMap (fun e => projectLines e.1 e.2)) =
          .ok (done ++ entries.map (fun e => (e.1, canonProject e.2)), cur2) := by
  intro entries
  induction entries with
  | nil =>
    intro done cur _ _ _
    refine ⟨cur, ?_⟩
    simp only [List.flatMap_nil, List.foldlM_nil, List.map_nil, List.append_nil]
    rfl
  | cons e es ih =>
    intro done cur hWF hfresh hnd
    obtain ⟨u, p⟩ := e
    rw [List.flatMap_cons]
    rw [load_block u p done cur _ (hWF (u, p) (List.mem_cons_self _ _))
      (hfresh (u, p) (List.mem_cons_self _ _))]
    simp only [List.map_cons, List.nodup_cons] at hnd
    obtain ⟨cur2, hc⟩ := ih (done ++ [(u, canonProject p)]) (some u)
      (fun e2 h2 => hWF e2 (List.mem_cons_of_mem _ h2))
      (fun e2 h2 => by
        rw [dictGet_append_ne e2.1 u (fun hc => hnd.1
          (hc ▸ List.mem_map.mpr ⟨e2, h2, rfl⟩)) _ done]
        exact hfresh e2 (List.mem_cons_of_mem _ h2))
      hnd.2
    refine ⟨cur2, ?_⟩
    rw [hc]
    simp

theorem assigneeLine_noNl {m : String} (h : '\n' ∉ m.data) :
    '\n' ∉ assigneeLine m := by
  rw [show assigneeLine m = ['*', ' ', '/', 'u', '/'] ++ m.data from rfl]
  intro hc
  rcases List.mem_append.mp hc with h1 | h2
  · exact absurd h1 (by decide)
  · exact h h2

theorem interestedLine_noNl {m : String} (h : '\n' ∉ m.data) :
    '\n' ∉ interestedLine m := by
  rw [show interestedLine m =
    ['*', ' ', '[', 'I', 'N', 'T', 'E', 'R', 'E', 'S', 'T', 'E', 'D', ']',
      ' ', '/', 'u', '/'] ++ m.data from rfl]
  intro hc
  rcases List.mem_append.mp hc with h1 | h2
  · exact absurd h1 (by decide)
  · exact h h2

theorem projectLines_noNl {u : String} {p : Project} (hWF : WFentry u p) :
    ∀ l ∈ projectLines u p, '\n' ∉ l := by
  obtain ⟨hTnl, hUnl, -, -, -, -, hAWF, hIWF, -⟩ := hWF
  intro l hl
  unfold projectLines at hl
  rcases List.mem_cons.mp hl with he | hl2
  · subst he
    exact headingLine_noNl hTnl hUnl
  rcases List.mem_append.mp hl2 with ha | hi
  · obtain ⟨m, hm, he⟩ := List.mem_map.mp ha
    subst he
    exact assigneeLine_noNl
      (hAWF m ((List.perm_insertionSort pyLe p.assignees).mem_iff.mp hm)).1
  · obtain ⟨m, hm, he⟩ := List.mem_map.mp hi
    subst he
    exact interestedLine_noNl
      (hIWF m ((List.perm_insertionSort pyLe p.interested).mem_iff.mp hm)).1

theorem blocks_ne_nil {entries : Projects} (h : entries ≠ []) :
    entries.flatMap (fun e => projectLines e.1 e.2) ≠ [] := by
  cases entries with
  | nil => exact absurd rfl h
  | cons e es => simp [projectLines]

theorem saveProjects_lines (ps : Projects)
    (hne : ∀ e ∈ sortByTitle ps, ¬(e.2.assignees = [] ∧ e.2.interested = [])) :
    (sortByTitle ps).foldl saveStep [] =
      (sortByTitle ps).flatMap (fun e => projectLines e.1 e.2) := by
  rw [foldl_saveStep, List.nil_append]
  congr 1
  apply List.filter_eq_self.mpr
  intro e he
  rcases not_and_or.mp (hne e he) with h | h <;> simp [List.isEmpty_iff, h]

/-- Parsing a saved well-formed ledger yields the canonical (title-sorted,
roster-sorted) form of the state. -/
theorem loadProjects_saveProjects (ps : Projects) (hWF : WFstate ps) :
    loadProjects (saveProjects ps) = .ok (canonState ps) := by
  obtain ⟨hkeys, hent⟩ := hWF
  have hperm : (sortByTitle ps).Perm ps := List.perm_insertionSort _ ps
  have hentS : ∀ e ∈ sortByTitle ps, WFentry e.1 e.2 :=
    fun e he => hent e (hperm.mem_iff.mp he)
  by_cases hnil : sortByTitle ps = []
  · have hps : ps = [] := by
      have hlen := hperm.length_eq
      rw [hnil] at hlen
      exact List.length_eq_zero.mp hlen.symm
    subst hps
    decide
  · have hlines : (sortByTitle ps).foldl saveStep [] =
        (sortByTitle ps).flatMap (fun e => projectLines e.1 e.2) :=
      saveProjects_lines ps (fun e he hc => by
        rcases (hentS e he).2.2.2.2.2.2.2.2 with h | h
        · exact h hc.1
        · exact h hc.2)
    have hdoc : (saveProjects ps).data =
        joinNl ((sortByTitle ps).flatMap (fun e => projectLines e.1 e.2)) := by
      unfold saveProjects
      rw [hlines]
    have hsplit : splitNl (saveProjects ps).data =
        (sortByTitle ps).flatMap (fun e => projectLines e.1 e.2) := by
      rw [hdoc]
      apply splitNl_joinNl _ (blocks_ne_nil hnil)
      intro l hl
      obtain ⟨e, he, hle⟩ := List.mem_flatMap.mp hl
      exact projectLines_noNl (hentS e he) l hle
    have hknd : ((sortByTitle ps).map Prod.fst).Nodup :=
      ((hperm.map Prod.fst).nodup_iff).mpr hkeys
    obtain ⟨cur2, hload⟩ := load_blocks (sortByTitle ps) [] none hentS
      (fun e _ => rfl) hknd
    unfold loadProjects
    rw [hsplit, hload]
    simp [canonState]

theorem canonState_keys (ps : Projects) :
    (canonState ps).map Prod.fst = (sortByTitle ps).map Prod.fst := by
  unfold canonState
  rw [List.map_map]
  rfl

theorem canonState_sorted (ps : Projects) :
    List.Sorted titleLe (canonState ps) := by
  have hs : List.Sorted titleLe (sortByTitle ps) :=
    List.sorted_insertionSort _ _
  exact List.Pairwise.map _ (fun a b hab => hab) hs

theorem pySorted_idem (l : List String) : pySorted (pySorted l) = pySorted l :=
  List.Sorted.insertionSort_eq (List.sorted_insertionSort _ _)

theorem pySorted_nil_iff (l : List String) : pySorted l = [] ↔ l = [] := by
  constructor
  · intro h
    have hlen := (List.perm_insertionSort pyLe l).length_eq
    unfold pySorted at h
    rw [h] at hlen
    exact List.length_eq_zero.mp hlen.symm
  · intro h
    subst h
    rfl

theorem projectLines_canon (u : String) (p : Project) :
    projectLines u (canonProject p) = projectLines u p := by
  unfold projectLines canonProject pySorted
  rw [List.Sorted.insertionSort_eq (List.sorted_insertionSort pyLe p.assignees),
    List.Sorted.insertionSort_eq (List.sorted_insertionSort pyLe p.interested)]

theorem saveStep_canon (acc : List (List Char)) (e : String × Project) :
    saveStep acc (e.1, canonProject e.2) = saveStep acc e := by
  unfold saveStep
  by_cases h : e.2.assignees = [] ∧ e.2.interested = []
  · have h1 : (canonProject e.2).assignees = [] := by
      simp only [canonProject]
      exact (pySorted_nil_iff _).mpr h.1
    have h2 : (canonProject e.2).interested = [] := by
      simp only [canonProject]
      exact (pySorted_nil_iff _).mpr h.2
    rw [if_pos ⟨h1, h2⟩, if_pos h]
  · have h2 : ¬((canonProject e.2).assignees = [] ∧ (canonProject e.2).interested = []) := by
      intro hc
      refine h ⟨?_, ?_⟩
      · exact (pySorted_nil_iff _).mp hc.1
      · exact (pySorted_nil_iff _).mp hc.2
    rw [if_neg h2, if_neg h]
    rw [projectLines_canon]

theorem foldl_saveStep_canon :
    ∀ (l : Projects) (acc : List (List Char)),
      l.foldl (fun acc e => saveStep acc (e.1, canonProject e.2)) acc =
        l.foldl saveStep acc := by
  intro l
  induction l with
  | nil => intro acc; rfl
  | cons e es ih =>
    intro acc
    rw [List.foldl_cons, List.foldl_cons, saveStep_canon]
    exact ih _

theorem saveProjects_canonState (ps : Projects) :
    saveProjects (canonState ps) = saveProjects ps := by
  unfold saveProjects
  rw [show sortByTitle (canonState ps) = canonState ps from
    List.Sorted.insertionSort_eq (canonState_sorted ps)]
  congr 1
  unfold canonState
  rw [List.foldl_map]
  exact congrArg joinNl (foldl_saveStep_canon _ _)

/-- C1 counterexample: a ledger holding one topic whose rosters are both
empty serializes to the empty document, which parses back to a state with no
topics at all — the round trip does not preserve the set of topics. -/
theorem claim_C1_cex :
    dictGet "u1" [("u1", (⟨"T", [], []⟩ : Project))] = some ⟨"T", [], []⟩ ∧
    saveProjects [("u1", (⟨"T", [], []⟩ : Project))] = "" ∧
    loadProjects (saveProjects [("u1", (⟨"T", [], []⟩ : Project))]) =
      .ok ([] : Projects) ∧
    dictGet "u1" ([] : Projects) = none := by
  refine ⟨rfl, rfl, ?_, rfl⟩
  decide

/-- C1 (amended): for every well-formed ledger state — distinct urls, no
newlines or `](` in titles and urls, duplicate-free rosters of names without
slashes, newlines or trailing whitespace, and every topic holding at least
one member — serializing and parsing yields a state with the same topics
(same urls, same titles) and the same rosters as sets, and re-serializing
the parsed state reproduces the document byte for byte. -/
theorem claim_C1 (ps : Projects) (hWF : WFstate ps) :
    loadProjects (saveProjects ps) = .ok (canonState ps) ∧
    ((canonState ps).map Prod.fst).Perm (ps.map Prod.fst) ∧
    (∀ u p, dictGet u ps = some p →
      dictGet u (canonState ps) = some (canonProject p) ∧
      (canonProject p).title = p.title ∧
      (∀ m, m ∈ (canonProject p).assignees ↔ m ∈ p.assignees) ∧
      (∀ m, m ∈ (canonProject p).interested ↔ m ∈ p.interested)) ∧
    saveProjects (canonState ps) = saveProjects ps := by
  have hperm : (sortByTitle ps).Perm ps := List.perm_insertionSort _ ps
  refine ⟨loadProjects_saveProjects ps hWF, ?_, ?_, saveProjects_canonState ps⟩
  · rw [canonState_keys]
    exact hperm.map Prod.fst
  · intro u p hget
    have hmem : (u, p) ∈ ps := dictGet_mem hget
    have hmemS : (u, p) ∈ sortByTitle ps := hperm.mem_iff.mpr hmem
    have hmemC : (u, canonProject p) ∈ canonState ps := by
      unfold canonState
      exact List.mem_map.mpr ⟨(u, p), hmemS, rfl⟩
    have hknd : ((canonState ps).map Prod.fst).Nodup := by
      rw [canonState_keys]
      exact ((hperm.map Prod.fst).nodup_iff).mpr hWF.1
    refine ⟨dictGet_of_mem_nodup hknd hmemC, rfl, ?_, ?_⟩
    · intro m
      exact (List.perm_insertionSort pyLe p.assignees).mem_iff
    · intro m
      exact (List.perm_insertionSort pyLe p.interested).mem_iff

theorem claim_C1_witness :
    WFstate [("u1", ⟨"Title", ["bob", "alice"], ["carol"]⟩)] ∧
    loadProjects (saveProjects [("u1", ⟨"Title", ["bob", "alice"], ["carol"]⟩)]) =
      .ok (canonState [("u1", ⟨"Title", ["bob", "alice"], ["carol"]⟩)]) ∧
    saveProjects (canonState [("u1", ⟨"Title", ["bob", "alice"], ["carol"]⟩)]) =
      saveProjects [("u1", ⟨"Title", ["bob", "alice"], ["carol"]⟩)] :=
  ⟨by decide,
    (claim_C1 [("u1", ⟨"Title", ["bob", "alice"], ["carol"]⟩)] (by decide)).1,
    (claim_C1 [("u1", ⟨"Title", ["bob", "alice"], ["carol"]⟩)] (by decide)).2.2.2⟩

end HackdayBot
